import Mathlib

/-!
Verification of the mofmt Modelica formatter against its specification.

The repository provides two source files: `formatter.rs` (the public entry
points `pretty_print` / `pretty_print_with_line_length`, which compose the
marker-generation pass `formatting::format` with the printing pass
`printing::print`) and `main.rs` (the command-line layer: argument parsing,
directory traversal, check mode, exit-code aggregation).

The formatting core itself (`formatting.rs`, `printing.rs`) and the parser
are external to the given sources, so they are modelled here from the
specification (definitions whose doc comments start with
`Modelled from the spec:`).  Rust `String` values are modelled as `List Char`,
`usize` as `Nat` with an explicit bound where overflow matters, fallible
operations as `Except`/`Option`, and the process-level effects of `main.rs`
(file system, exits, panics) by explicit state passing.
-/

set_option synthInstance.maxHeartbeats 1000000

namespace Mofmt

/-- Program text: a Rust `String` modelled as a list of characters. -/
abbrev Text := List Char

/-! Part: Concrete syntax tree (data model, spec section 3) -/

/-- Modelled from the spec: syntax-kind classification of CST nodes
(`StoredDefinition`, `ClassDefinition`, `EquationSection`, expression
variants, argument lists), closed tagged union; `otherKind` stands for every
kind with no specific layout rule (handled by the default rule). -/
inductive NodeKind where
  | storedDefinition
  | classDefinition
  | equationSection
  | equation
  | binaryExpr
  | argumentList
  | otherKind
deriving DecidableEq

/-- Modelled from the spec: the lossless concrete syntax tree produced by the
external parser.  A leaf is a token: its exact source text, a comment flag
(trivia classification), and the number of blank lines that preceded it in
the source (attached trivia).  A node is a syntax-kind tag with an ordered
list of children. -/
inductive CSTree where
  | leaf (blanks : Nat) (text : Text) (isComment : Bool)
  | node (kind : NodeKind) (children : List CSTree)

mutual

/-- Boolean equality on trees (decidability support). -/
def beqT : CSTree → CSTree → Bool
  | .leaf b t c, .leaf b2 t2 c2 => b == b2 && t == t2 && c == c2
  | .node k cs, .node k2 cs2 => k == k2 && beqTL cs cs2
  | _, _ => false

/-- Boolean equality on lists of trees. -/
def beqTL : List CSTree → List CSTree → Bool
  | [], [] => true
  | a :: as2, b :: bs => beqT a b && beqTL as2 bs
  | _, _ => false

end

mutual

def beqT_iff : ∀ a b : CSTree, beqT a b = true ↔ a = b
  | .leaf b t c, .leaf b2 t2 c2 => by
    simp [beqT, and_assoc]
  | .node k cs, .node k2 cs2 => by
    simp [beqT, beqTL_iff cs cs2]
  | .leaf _ _ _, .node _ _ => by simp [beqT]
  | .node _ _, .leaf _ _ _ => by simp [beqT]

def beqTL_iff : ∀ a b : List CSTree, beqTL a b = true ↔ a = b
  | [], [] => by simp [beqTL]
  | a :: as2, b :: bs => by
    simp [beqTL, beqT_iff a b, beqTL_iff as2 bs]
  | [], _ :: _ => by simp [beqTL]
  | _ :: _, [] => by simp [beqTL]

end

instance : DecidableEq CSTree := fun a b => decidable_of_iff _ (beqT_iff a b)

/-! Part: Markers (spec section 3) -/

/-- Modelled from the spec: layout directives emitted by the marker
generator, interleaved with the token stream in left-to-right traversal
order.  `group` marks a span whose `soft` breaks resolve uniformly; the
open/close boundary pair of the spec is represented by nesting.  `blank n`
requests up to `n` blank lines; `hard` always becomes a newline; `soft`
becomes a newline only when the enclosing group does not fit;
`space n` is literal inter-token spacing; `indentInc`/`indentDec` push and
pop one indentation level. -/
inductive Marker where
  | tok (text : Text) (isComment : Bool)
  | space (n : Nat)
  | soft
  | hard
  | blank (n : Nat)
  | indentInc
  | indentDec
  | group (inner : List Marker)

mutual

/-- Boolean equality on markers (decidability support). -/
def beqM : Marker → Marker → Bool
  | .tok t c, .tok t2 c2 => t == t2 && c == c2
  | .space n, .space n2 => n == n2
  | .soft, .soft => true
  | .hard, .hard => true
  | .blank n, .blank n2 => n == n2
  | .indentInc, .indentInc => true
  | .indentDec, .indentDec => true
  | .group a, .group b => beqML a b
  | _, _ => false

/-- Boolean equality on lists of markers. -/
def beqML : List Marker → List Marker → Bool
  | [], [] => true
  | a :: as2, b :: bs => beqM a b && beqML as2 bs
  | _, _ => false

end

mutual

def beqM_iff : ∀ a b : Marker, beqM a b = true ↔ a = b
  | .tok t c, .tok t2 c2 => by simp [beqM]
  | .space n, .space n2 => by simp [beqM]
  | .soft, .soft => by simp [beqM]
  | .hard, .hard => by simp [beqM]
  | .blank n, .blank n2 => by simp [beqM]
  | .indentInc, .indentInc => by simp [beqM]
  | .indentDec, .indentDec => by simp [beqM]
  | .group a, .group b => by simp [beqM, beqML_iff a b]
  | .tok _ _, .space _ => by simp [beqM]
  | .tok _ _, .soft => by simp [beqM]
  | .tok _ _, .hard => by simp [beqM]
  | .tok _ _, .blank _ => by simp [beqM]
  | .tok _ _, .indentInc => by simp [beqM]
  | .tok _ _, .indentDec => by simp [beqM]
  | .tok _ _, .group _ => by simp [beqM]
  | .space _, .tok _ _ => by simp [beqM]
  | .space _, .soft => by simp [beqM]
  | .space _, .hard => by simp [beqM]
  | .space _, .blank _ => by simp [beqM]
  | .space _, .indentInc => by simp [beqM]
  | .space _, .indentDec => by simp [beqM]
  | .space _, .group _ => by simp [beqM]
  | .soft, .tok _ _ => by simp [beqM]
  | .soft, .space _ => by simp [beqM]
  | .soft, .hard => by simp [beqM]
  | .soft, .blank _ => by simp [beqM]
  | .soft, .indentInc => by simp [beqM]
  | .soft, .indentDec => by simp [beqM]
  | .soft, .group _ => by simp [beqM]
  | .hard, .tok _ _ => by simp [beqM]
  | .hard, .space _ => by simp [beqM]
  | .hard, .soft => by simp [beqM]
  | .hard, .blank _ => by simp [beqM]
  | .hard, .indentInc => by simp [beqM]
  | .hard, .indentDec => by simp [beqM]
  | .hard, .group _ => by simp [beqM]
  | .blank _, .tok _ _ => by simp [beqM]
  | .blank _, .space _ => by simp [beqM]
  | .blank _, .soft => by simp [beqM]
  | .blank _, .hard => by simp [beqM]
  | .blank _, .indentInc => by simp [beqM]
  | .blank _, .indentDec => by simp [beqM]
  | .blank _, .group _ => by simp [beqM]
  | .indentInc, .tok _ _ => by simp [beqM]
  | .indentInc, .space _ => by simp [beqM]
  | .indentInc, .soft => by simp [beqM]
  | .indentInc, .hard => by simp [beqM]
  | .indentInc, .blank _ => by simp [beqM]
  | .indentInc, .indentDec => by simp [beqM]
  | .indentInc, .group _ => by simp [beqM]
  | .indentDec, .tok _ _ => by simp [beqM]
  | .indentDec, .space _ => by simp [beqM]
  | .indentDec, .soft => by simp [beqM]
  | .indentDec, .hard => by simp [beqM]
  | .indentDec, .blank _ => by simp [beqM]
  | .indentDec, .indentInc => by simp [beqM]
  | .indentDec, .group _ => by simp [beqM]
  | .group _, .tok _ _ => by simp [beqM]
  | .group _, .space _ => by simp [beqM]
  | .group _, .soft => by simp [beqM]
  | .group _, .hard => by simp [beqM]
  | .group _, .blank _ => by simp [beqM]
  | .group _, .indentInc => by simp [beqM]
  | .group _, .indentDec => by simp [beqM]

def beqML_iff : ∀ a b : List Marker, beqML a b = true ↔ a = b
  | [], [] => by simp [beqML]
  | a :: as2, b :: bs => by simp [beqML, beqM_iff a b, beqML_iff as2 bs]
  | [], _ :: _ => by simp [beqML]
  | _ :: _, [] => by simp [beqML]

end

instance : DecidableEq Marker := fun a b => decidable_of_iff _ (beqM_iff a b)

/-- Modelled from the spec: the marker stream produced by `format`, carrying
the configured maximum line width alongside the ordered marker/token
sequence (the printer consults the configured width; the markers themselves
do not depend on it). -/
structure MarkerStream where
  maxWidth : Option Nat
  markers : List Marker
deriving DecidableEq

/-! Part: Marker generator (spec section 4.1) -/

/-- Blank-line count attached to the first token of a subtree (0 when the
leftmost path ends in an empty node). -/
def firstBlanks : CSTree → Nat
  | .leaf b _ _ => b
  | .node _ [] => 0
  | .node _ (c :: _) => firstBlanks c

mutual

/-- Modelled from the spec: the marker generator (`formatting::format`'s
tree walk), driven entirely by syntax kind.  A trailing same-line comment
forces a `hard` break immediately after its token.  Class bodies get a hard
break after the header, an indented body with hard breaks between items and
a dedent before the end part; equation sections get one hard break per
equation at an extra indent level; expressions and argument lists become a
single group with soft breaks at their boundaries; top-level members are
separated by collapsed blank lines; every other kind falls back to
`space 1` between children. -/
def gen : CSTree → List Marker
  | .leaf _ t c => if c then [.tok t true, .hard] else [.tok t false]
  | .node .storedDefinition cs => genTop cs
  | .node .classDefinition [] => []
  | .node .classDefinition (c0 :: rest) => gen c0 ++ .indentInc :: classTail rest
  | .node .equationSection [] => []
  | .node .equationSection (c0 :: rest) => gen c0 ++ .indentInc :: secTail rest
  | .node .equation cs => [.group (genSoft cs)]
  | .node .binaryExpr cs => [.group (genSoft cs)]
  | .node .argumentList cs => [.group (genSoft cs)]
  | .node .otherKind cs => genSpace cs

/-- Modelled from the spec: top-level members separated by at most one blank
line (consecutive source blank lines collapse to `blank 1`; `blank 0` is a
plain line break). -/
def genTop : List CSTree → List Marker
  | [] => []
  | c :: cs => gen c ++ genTopT cs

/-- Continuation of `genTop` after the first member: each further member is
preceded by its collapsed blank-line marker. -/
def genTopT : List CSTree → List Marker
  | [] => []
  | c :: cs => .blank (min (firstBlanks c) 1) :: (gen c ++ genTopT cs)

/-- Modelled from the spec: class body after the header: indented items on
their own lines, dedent and hard break before the final (end) child. -/
def classTail : List CSTree → List Marker
  | [] => [.indentDec]
  | [c] => .indentDec :: .hard :: gen c
  | c :: c2 :: cs => .hard :: (gen c ++ classTail (c2 :: cs))

/-- Modelled from the spec: equation-section body: one hard break per
equation at the incremented indent, dedent at the end. -/
def secTail : List CSTree → List Marker
  | [] => [.indentDec]
  | c :: cs => .hard :: (gen c ++ secTail cs)

/-- Modelled from the spec: children joined by soft breaks (shared group
contents for expressions and argument lists). -/
def genSoft : List CSTree → List Marker
  | [] => []
  | c :: cs => gen c ++ genSoftT cs

/-- Continuation of `genSoft`: a soft break before each further child. -/
def genSoftT : List CSTree → List Marker
  | [] => []
  | c :: cs => .soft :: (gen c ++ genSoftT cs)

/-- Modelled from the spec: the default fallback rule, `space 1` between
children and no structural break. -/
def genSpace : List CSTree → List Marker
  | [] => []
  | c :: cs => gen c ++ genSpaceT cs

/-- Continuation of `genSpace`: one space before each further child. -/
def genSpaceT : List CSTree → List Marker
  | [] => []
  | c :: cs => .space 1 :: (gen c ++ genSpaceT cs)

end

/-- Modelled from the spec: `formatting::format(tree, max_width)`: the
marker-generation pass.  Which markers are emitted does not depend on the
width; the width is recorded in the stream for the printer's fits-test. -/
def format (t : CSTree) (w : Option Nat) : MarkerStream :=
  ⟨w, gen t⟩

/-! Part: Printer (spec section 4.2) -/

/-- Number of spaces per indentation level (fixed default). -/
def indentWidth : Nat := 2

mutual

/-- Modelled from the spec: flat-rendered width of one marker (tokens by
text length, `soft` as a single space, `blank` as nothing); `none` when the
content contains a `hard` break, which always renders as a newline and so
never fits on one line. -/
def flatW1 : Marker → Option Nat
  | .tok t _ => some t.length
  | .space n => some n
  | .soft => some 1
  | .hard => none
  | .blank _ => some 0
  | .indentInc => some 0
  | .indentDec => some 0
  | .group inner => flatWL inner

/-- Flat-rendered width of a marker sequence (the printer's look-ahead to a
group's matching close). -/
def flatWL : List Marker → Option Nat
  | [] => some 0
  | m :: ms =>
    match flatW1 m, flatWL ms with
    | some a, some b => some (a + b)
    | _, _ => none

end

mutual

/-- Modelled from the spec: flat rendering of one marker inside a group that
fits: tokens verbatim, every `soft` a single space, `blank` nothing.  The
`hard` case is unreachable in a flat group (its presence makes the fits-test
fail); it is given a space for totality. -/
def flatR1 : Marker → Text
  | .tok t _ => t
  | .space n => List.replicate n ' '
  | .soft => [' ']
  | .hard => [' ']
  | .blank _ => []
  | .indentInc => []
  | .indentDec => []
  | .group inner => flatRL inner

/-- Flat rendering of a marker sequence. -/
def flatRL : List Marker → Text
  | [] => []
  | m :: ms => flatR1 m ++ flatRL ms

end

mutual

/-- Offsets (relative columns) of the soft breaks inside one flat-rendered
marker: the positions where a break would have been available but was
rendered as a space. -/
def flatOps1 : Marker → List Nat
  | .soft => [0]
  | .group inner => flatOpsL inner
  | _ => []

/-- Offsets of the soft breaks inside a flat-rendered marker sequence. -/
def flatOpsL : List Marker → List Nat
  | [] => []
  | m :: ms => flatOps1 m ++ (flatOpsL ms).map (fun o => (flatR1 m).length + o)

end

mutual

/-- Token texts contained in one marker, in order. -/
def mtoks1 : Marker → List Text
  | .tok t _ => [t]
  | .group inner => mtoksL inner
  | _ => []

/-- Token texts contained in a marker sequence, in order. -/
def mtoksL : List Marker → List Text
  | [] => []
  | m :: ms => mtoks1 m ++ mtoksL ms

end

mutual

/-- Indent level after applying the indent deltas of one marker. -/
def flatInd1 : Marker → Nat → Nat
  | .indentInc, i => i + 1
  | .indentDec, i => i - 1
  | .group inner, i => flatIndL inner i
  | _, i => i

/-- Indent level after applying the indent deltas of a marker sequence. -/
def flatIndL : List Marker → Nat → Nat
  | [], i => i
  | m :: ms, i => flatIndL ms (flatInd1 m i)

end

/-- One rendered output line, instrumented for the verification: its text
(including leading indentation), the columns of the soft-break opportunities
that were rendered flat (available but untaken break points), and the token
texts emitted on the line. -/
structure RichLine where
  text : Text
  ops : List Nat
  toks : List Text
deriving DecidableEq

/-- The empty output line. -/
def emptyLine : RichLine := ⟨[], [], []⟩

/-- A fresh line starting at the given indent level. -/
def lineAt (ind : Nat) : RichLine :=
  ⟨List.replicate (ind * indentWidth) ' ', [], []⟩

/-- Modelled from the spec: the printer state: completed lines, the line
under construction, the indent-level counter, and the pending (not yet
materialised) line breaks and spaces.  Buffering whitespace until the next
token is emitted realises break-supersedes-space, collapse of consecutive
breaks to the maximum, the rule that an indent pop takes effect before the
next line's leading whitespace, and that trailing whitespace is never
emitted. -/
structure PState where
  done : List RichLine
  cur : RichLine
  indent : Nat
  pendingNL : Nat
  pendingSp : Nat
deriving DecidableEq

/-- The initial printer state. -/
def initState : PState := ⟨[], emptyLine, 0, 0, 0⟩

/-- Materialise pending whitespace ahead of non-whitespace output: pending
line breaks close the current line (plus any requested blank lines) and open
a fresh line at the current indent; otherwise pending spaces are appended. -/
def flushTok (st : PState) : PState :=
  if st.pendingNL > 0 then
    { done := st.done ++ [st.cur] ++ List.replicate (st.pendingNL - 1) emptyLine
      cur := lineAt st.indent
      indent := st.indent
      pendingNL := 0
      pendingSp := 0 }
  else
    { st with
      cur := { st.cur with text := st.cur.text ++ List.replicate st.pendingSp ' ' }
      pendingSp := 0 }

/-- Emit one token verbatim. -/
def emitTok (st : PState) (t : Text) : PState :=
  let s := flushTok st
  { s with cur := { s.cur with text := s.cur.text ++ t, toks := s.cur.toks ++ [t] } }

/-- Emit a group that fits flat: its flat rendering is appended to the
current line, its soft-break positions are recorded as untaken break
opportunities, and its indent deltas are applied. -/
def emitFlat (st : PState) (inner : List Marker) : PState :=
  let s := flushTok st
  { s with
    cur := { s.cur with
      text := s.cur.text ++ flatRL inner
      ops := s.cur.ops ++ (flatOpsL inner).map (fun o => s.cur.text.length + o)
      toks := s.cur.toks ++ mtoksL inner }
    indent := flatIndL inner s.indent }

/-- The column at which the next non-whitespace output will start. -/
def effCol (st : PState) : Nat :=
  if st.pendingNL > 0 then st.indent * indentWidth
  else st.cur.text.length + st.pendingSp

/-- Modelled from the spec: the fits-test: a group resolves flat when its
content has a flat width (no hard break inside) and either no maximum width
is configured or the current column plus that width does not exceed the
maximum (ties prefer flat). -/
def fits (w : Option Nat) (col : Nat) (inner : List Marker) : Bool :=
  match flatWL inner with
  | none => false
  | some fw =>
    match w with
    | none => true
    | some mx => decide (col + fw ≤ mx)

mutual

/-- Modelled from the spec: the width-aware printing pass on one marker.
`soft` outside a fitting group, `hard` and `blank` become pending newlines;
a group is resolved by the fits-test: a flat group is appended in its flat
rendering, a broken group is walked recursively so that every `soft` inside
it becomes a newline at the current indent and nested groups are
re-evaluated against the new column. -/
def render1 (w : Option Nat) : Marker → PState → PState
  | .tok t _, st => emitTok st t
  | .space n, st => { st with pendingSp := st.pendingSp + n }
  | .soft, st => { st with pendingNL := max st.pendingNL 1 }
  | .hard, st => { st with pendingNL := max st.pendingNL 1 }
  | .blank n, st => { st with pendingNL := max st.pendingNL (n + 1) }
  | .indentInc, st => { st with indent := st.indent + 1 }
  | .indentDec, st => { st with indent := st.indent - 1 }
  | .group inner, st =>
    if fits w (effCol st) inner then emitFlat st inner
    else renderL w inner st

/-- Modelled from the spec: the printer's single linear walk over the
marker stream (`printing::print`). -/
def renderL (w : Option Nat) : List Marker → PState → PState
  | [], st => st
  | m :: ms, st => renderL w ms (render1 w m st)

end

/-- The completed lines of a final printer state. -/
def finalize (st : PState) : List RichLine := st.done ++ [st.cur]

/-- Join rendered lines with the core's normalised line terminator. -/
def joinLines : List RichLine → Text
  | [] => []
  | [l] => l.text
  | l :: l2 :: ls => l.text ++ '\n' :: joinLines (l2 :: ls)

/-- The instrumented lines produced by printing a marker stream. -/
def renderLines (ms : MarkerStream) : List RichLine :=
  finalize (renderL ms.maxWidth ms.markers initState)

/-- Modelled from the spec: `printing::print(tree, markers)`: render the
token stream plus markers to final text.  The tree argument mirrors the
source signature (token texts already travel inside the markers here). -/
def print (_t : CSTree) (ms : MarkerStream) : Text :=
  joinLines (renderLines ms)

/-- `ModelicaCST::pretty_print`: formatted code with no maximum line
length (from `formatter.rs`). -/
def pretty_print (t : CSTree) : Text :=
  print t (format t none)

/-- `ModelicaCST::pretty_print_with_line_length`: formatted code with the
specified maximum line length (from `formatter.rs`). -/
def pretty_print_with_line_length (t : CSTree) (maxLineLength : Nat) : Text :=
  print t (format t (some maxLineLength))

/-- The instrumented output lines of formatting a tree at a given width. -/
def formatLines (t : CSTree) (w : Option Nat) : List RichLine :=
  renderLines (format t w)

/-- All break-point columns recorded in the printer state are within `W`. -/
def opsInv (st : PState) (W : Nat) : Prop :=
  ∀ L ∈ finalize st, ∀ c ∈ L.ops, c ≤ W

/-- The tree refuting the literal width-respect claim: a fitting group
followed by trailing space-separated tokens. -/
def cexTreeC3 : CSTree :=
  .node .otherKind [
    .node .argumentList [.leaf 0 ['a', 'a'] false, .leaf 0 ['b', 'b'] false],
    .leaf 0 ['c', 'c', 'c', 'c'] false,
    .leaf 0 ['d', 'd', 'd', 'd'] false]

/-! Part: Tree predicates and the blank-collapse abstraction -/

mutual

/-- Every leaf's blank count set to zero. -/
def zeroAll : CSTree → CSTree
  | .leaf _ t c => .leaf 0 t c
  | .node k cs => .node k (zeroAllL cs)

/-- `zeroAll` over a list of children. -/
def zeroAllL : List CSTree → List CSTree
  | [] => []
  | c :: cs => zeroAll c :: zeroAllL cs

end

/-- Set the blank count of the first token of a subtree. -/
def setFirst (n : Nat) : CSTree → CSTree
  | .leaf _ t c => .leaf n t c
  | .node k [] => .node k []
  | .node k (c :: cs) => .node k (setFirst n c :: cs)

/-- Whether the leftmost path of a subtree ends at a token. -/
def firstLeafEx : CSTree → Bool
  | .leaf _ _ _ => true
  | .node _ [] => false
  | .node _ (c :: _) => firstLeafEx c

mutual

/-- No `storedDefinition` node anywhere in the subtree. -/
def noSD : CSTree → Bool
  | .leaf _ _ _ => true
  | .node k cs => (k != NodeKind.storedDefinition) && noSDL cs

/-- `noSD` over a list of children. -/
def noSDL : List CSTree → Bool
  | [] => true
  | c :: cs => noSD c && noSDL cs

end

/-- Modelled from the spec: grammatical well-formedness of a parsed tree:
the `StoredDefinition` kind occurs only at the root (the grammar has one
stored definition per file). -/
def WF : CSTree → Bool
  | .node .storedDefinition cs => noSDL cs
  | t => noSD t

/-- Modelled from the spec: the tree the external lossless parser recovers
from the formatter's output, described at the trivia level: token texts,
kinds and shape are unchanged; runs of blank lines between top-level members
have been collapsed to at most one; blank lines elsewhere are gone. -/
def collapseBlanks : CSTree → CSTree
  | .node .storedDefinition [] => .node .storedDefinition []
  | .node .storedDefinition (c :: cs) =>
    .node .storedDefinition
      (zeroAll c :: cs.map (fun x => setFirst (min (firstBlanks x) 1) (zeroAll x)))
  | t => zeroAll t

mutual

/-- The significant token sequence of a tree: every token text (comments and
literals included), in source order. -/
def treeToks : CSTree → List Text
  | .leaf _ t _ => [t]
  | .node _ cs => treeToksL cs

/-- `treeToks` over a list of children. -/
def treeToksL : List CSTree → List Text
  | [] => []
  | c :: cs => treeToks c ++ treeToksL cs

end

/-! Part: Command-line layer (`main.rs`) -/

/-- `EOL` from `main.rs`: the platform line terminator, `"\r\n"` on Windows
and `"\n"` otherwise. -/
def EOL (windows : Bool) : Text :=
  if windows then "\r\n".toList else "\n".toList

/-- The final path component (after the last `/`). -/
def fileNameOf (p : Text) : Text :=
  (p.reverse.takeWhile (fun c => c ≠ '/')).reverse

/-- File-extension extraction with Rust `Path::extension` semantics: the
part of the file name after its last dot; `none` when there is no dot or
when the only dot starts the file name (a hidden file). -/
def extensionOf (p : Text) : Option Text :=
  let f := fileNameOf p
  let r := f.reverse
  if r.contains '.' then
    let ext := r.takeWhile (fun c => c ≠ '.')
    if (r.dropWhile (fun c => c ≠ '.')).drop 1 = [] then none
    else some ext.reverse
  else none

/-- `is_modelica` from `main.rs`: `true` iff the path's extension is `mo`. -/
def is_modelica (p : Text) : Bool :=
  extensionOf p = some ['m', 'o']

/-- A file-system node as the CLI sees it: a file carries its path, the
result of reading it (`Except` error message for a missing or unreadable
file) and whether writing to it would succeed; a directory carries whether
reading its entry list succeeds, and its entries. -/
inductive FsTree where
  | file (path : Text) (content : Except Text Text) (writeOk : Bool)
  | dir (path : Text) (readOk : Bool) (entries : List FsTree)

/-- Decidable equality for `Except` results (decidability support for
concrete CLI runs). -/
instance exceptDecEq {α β : Type} [DecidableEq α] [DecidableEq β] :
    DecidableEq (Except α β) := fun a b =>
  match a, b with
  | .error x, .error y =>
    if h : x = y then .isTrue (by rw [h])
    else .isFalse (by intro hc; cases hc; exact h rfl)
  | .ok x, .ok y =>
    if h : x = y then .isTrue (by rw [h])
    else .isFalse (by intro hc; cases hc; exact h rfl)
  | .error _, .ok _ => .isFalse (by intro hc; cases hc)
  | .ok _, .error _ => .isFalse (by intro hc; cases hc)

/-- Boolean equality on read results (decidability support). -/
def beqEx : Except Text Text → Except Text Text → Bool
  | .ok a, .ok b => a == b
  | .error a, .error b => a == b
  | _, _ => false

def beqEx_iff : ∀ a b : Except Text Text, beqEx a b = true ↔ a = b := by
  intro a b
  cases a <;> cases b <;> simp [beqEx]

mutual

/-- Boolean equality on file-system trees (decidability support). -/
def beqF : FsTree → FsTree → Bool
  | .file p c w, .file p2 c2 w2 => p == p2 && beqEx c c2 && w == w2
  | .dir p r es, .dir p2 r2 es2 => p == p2 && r == r2 && beqFL es es2
  | _, _ => false

/-- Boolean equality on lists of file-system trees. -/
def beqFL : List FsTree → List FsTree → Bool
  | [], [] => true
  | a :: as2, b :: bs => beqF a b && beqFL as2 bs
  | _, _ => false

end

mutual

def beqF_iff : ∀ a b : FsTree, beqF a b = true ↔ a = b
  | .file p c w, .file p2 c2 w2 => by simp [beqF, beqEx_iff, and_assoc]
  | .dir p r es, .dir p2 r2 es2 => by simp [beqF, beqFL_iff es es2, and_assoc]
  | .file _ _ _, .dir _ _ _ => by simp [beqF]
  | .dir _ _ _, .file _ _ _ => by simp [beqF]

def beqFL_iff : ∀ a b : List FsTree, beqFL a b = true ↔ a = b
  | [], [] => by simp [beqFL]
  | a :: as2, b :: bs => by simp [beqFL, beqF_iff a b, beqFL_iff as2 bs]
  | [], _ :: _ => by simp [beqFL]
  | _ :: _, [] => by simp [beqFL]

end

instance : DecidableEq FsTree := fun a b => decidable_of_iff _ (beqF_iff a b)

/-- `read_file` from `main.rs`: reject paths that are not Modelica files,
then return the file contents (or the I/O error message). -/
def read_file (p : Text) (content : Except Text Text) : Except Text Text :=
  if is_modelica p then content
  else .error (p ++ " is not a Modelica file".toList)

mutual

/-- `get_files_from_dir` from `main.rs`, written on the entry level: a file
entry is kept only when `is_modelica` holds (silently dropped otherwise); a
subdirectory is traversed recursively; a failing directory read panics
(modelled as `Except.error`, aborting the whole run). -/
def getFilesFromDir : FsTree → Except Text (List FsTree)
  | .file p c w => .ok (if is_modelica p then [.file p c w] else [])
  | .dir p readOk entries =>
    if readOk then getFilesList entries
    else .error (p ++ ": error reading from a directory".toList)

/-- Traversal of a directory's entries, concatenating their Modelica files. -/
def getFilesList : List FsTree → Except Text (List FsTree)
  | [] => .ok []
  | e :: es => do
    let a ← getFilesFromDir e
    let b ← getFilesList es
    .ok (a ++ b)

end

/-- Expansion of one command-line path argument (`format_files`'s first
loop): a directory is replaced by its Modelica files; a file path is kept
as-is, with no extension filtering. -/
def expandArg : FsTree → Except Text (List FsTree)
  | .file p c w => .ok [.file p c w]
  | d => getFilesFromDir d

/-- Expansion of all command-line path arguments, in order. -/
def expandArgs : List FsTree → Except Text (List FsTree)
  | [] => .ok []
  | a :: as2 => do
    let x ← expandArg a
    let y ← expandArgs as2
    .ok (x ++ y)

/-- The result of parsing one file, as the external parser hands it to the
CLI: the tree, the combined lexer and parser error messages
(`tokens().errors()` followed by `errors()`), and `tokens().code()`, the
parser's reconstruction of the source text. -/
structure Parsed where
  cst : CSTree
  errors : List Text
  code : Text

/-- The per-file outcome observable in `format_files`'s loop: the reported
diagnostic (read error or syntax errors), a check-mode verdict, or the text
written to the file. -/
inductive Outcome where
  | readError (msg : Text)
  | parseErrors (errs : List Text)
  | checkPassed
  | checkFailed
  | written (text : Text)
deriving DecidableEq

/-- Whether an outcome sets the CLI's failure exit code. -/
def outcomeFails : Outcome → Bool
  | .readError _ => true
  | .parseErrors _ => true
  | .checkFailed => true
  | .checkPassed => false
  | .written _ => false

/-- The `match line_length` in `format_files`: dispatch to the core entry
point with or without a maximum line length. -/
def prettyBoth (t : CSTree) : Option Nat → Text
  | some len => pretty_print_with_line_length t len
  | none => pretty_print t

/-- The body of `format_files`'s per-file loop, parameterised by the
formatting core `pp`: read the file, parse it, report syntax errors, and
otherwise either check the output (plus terminator) against
`tokens().code()` or produce the text to write. -/
def processFileWith (pp : CSTree → Option Nat → Text) (oracle : Text → Parsed)
    (check : Bool) (lineLength : Option Nat) (eol : Text)
    (p : Text) (content : Except Text Text) : Outcome :=
  match read_file p content with
  | .error e => .readError e
  | .ok source =>
    let parsed := oracle source
    if parsed.errors.isEmpty then
      let output := pp parsed.cst lineLength ++ eol
      if check then
        if output = parsed.code then .checkPassed else .checkFailed
      else .written output
    else .parseErrors parsed.errors

/-- The per-file loop with the real formatting core. -/
def processFile (oracle : Text → Parsed) (check : Bool) (lineLength : Option Nat)
    (eol : Text) (p : Text) (content : Except Text Text) : Outcome :=
  processFileWith prettyBoth oracle check lineLength eol p content

/-- The observable result of a completed `format_files` run: the per-file
outcomes in processing order and the process exit code. -/
structure RunResult where
  outcomes : List (Text × Outcome)
  code : Nat
deriving DecidableEq

/-- The `files.iter().for_each` loop of `format_files`, threading the
mutable exit code: each recoverable failure sets the code to 1 and
processing continues; a failing `fs::write` panics (`Except.error`),
aborting the run. -/
def filesLoop (pp : CSTree → Option Nat → Text) (oracle : Text → Parsed)
    (check : Bool) (lineLength : Option Nat) (eol : Text) :
    List FsTree → Nat → List (Text × Outcome) → Except Text RunResult
  | [], code, acc => .ok ⟨acc, code⟩
  | .file p c wOk :: fs, code, acc =>
    match processFileWith pp oracle check lineLength eol p c with
    | .written txt =>
      if wOk then filesLoop pp oracle check lineLength eol fs code (acc ++ [(p, .written txt)])
      else .error (p ++ ": error writing a file".toList)
    | o => filesLoop pp oracle check lineLength eol fs (if outcomeFails o then 1 else code) (acc ++ [(p, o)])
  | .dir _ _ _ :: fs, code, acc => filesLoop pp oracle check lineLength eol fs code acc

/-- `format_files` from `main.rs`, parameterised by the formatting core:
expand the arguments to a file list, process each file in order, and exit
with the aggregated code (a panic aborts instead). -/
def format_filesWith (pp : CSTree → Option Nat → Text) (args : List FsTree)
    (check : Bool) (lineLength : Option Nat) (oracle : Text → Parsed)
    (eol : Text) : Except Text RunResult := do
  let files ← expandArgs args
  filesLoop pp oracle check lineLength eol files 0 []

/-- `format_files` from `main.rs` with the real formatting core. -/
def format_files (args : List FsTree) (check : Bool) (lineLength : Option Nat)
    (oracle : Text → Parsed) (eol : Text) : Except Text RunResult :=
  format_filesWith prettyBoth args check lineLength oracle eol

/-! Part: Argument parsing (`main`) -/

/-- The numeric value of a decimal numeral with an optional leading `+`
(Rust's `usize::from_str` accepted syntax), without any range bound. -/
def numeralValue : Text → Option Nat
  | [] => none
  | '+' :: ds =>
    if ds ≠ [] ∧ ds.all Char.isDigit then
      some (ds.foldl (fun a c => a * 10 + (c.toNat - 48)) 0)
    else none
  | ds =>
    if ds.all Char.isDigit then
      some (ds.foldl (fun a c => a * 10 + (c.toNat - 48)) 0)
    else none

/-- The largest value of Rust's 64-bit `usize`. -/
def usizeMax : Nat := 2 ^ 64 - 1

/-- `str::parse::<usize>`: the accepted numerals whose value fits in
`usize`; overflow is a parse error. -/
def parseUsize (s : Text) : Option Nat :=
  match numeralValue s with
  | some n => if n ≤ usizeMax then some n else none
  | none => none

mutual

/-- The option-parsing `while` loop of `main`: `--check` and
`--line-length <N>` are consumed; any other `-` argument exits with status
1; the loop stops at the first path argument, and running out of arguments
means the paths are missing (exit 1). -/
def argLoop : List Text → Bool → Option Nat → Except Unit (Bool × Option Nat × List Text)
  | [], _, _ => .error ()
  | a :: rest, check, lineLength =>
    if a = "--check".toList then argLoop rest true lineLength
    else if a = "--line-length".toList then argLL rest check
    else if a.head? = some '-' then .error ()
    else .ok (check, lineLength, a :: rest)

/-- Consumption of the value following `--line-length`: a missing value, an
invalid numeral, or zero exits with status 1; otherwise the loop continues
with the parsed width. -/
def argLL : List Text → Bool → Except Unit (Bool × Option Nat × List Text)
  | [], _ => .error ()
  | v :: rest2, check =>
    match parseUsize v with
    | some n => if 0 < n then argLoop rest2 check (some n) else .error ()
    | none => .error ()

end

/-- The observable decision of `main` before any file is touched. -/
inductive CliResult where
  | usageExit
  | helpShown
  | versionShown
  | run (check : Bool) (lineLength : Option Nat) (paths : List Text)
deriving DecidableEq

/-- `main` from `main.rs` on its argument list (without the program name):
missing arguments or option errors exit with status 1 before any file is
formatted; `-h`/`-v` print and exit 0; otherwise `format_files` runs with
the parsed configuration. -/
def mofmtMain : List Text → CliResult
  | [] => .usageExit
  | a :: rest =>
    if a = "-h".toList ∨ a = "--help".toList then .helpShown
    else if a = "-v".toList ∨ a = "--version".toList then .versionShown
    else
      match argLoop (a :: rest) false none with
      | .error _ => .usageExit
      | .ok (check, lineLength, paths) => .run check lineLength paths

/-! Part: CLI loop lemmas -/

/-- The path stored in a file-system node. -/
def pathF : FsTree → Text
  | .file p _ _ => p
  | .dir p _ _ => p

/-- The read result stored in a file node. -/
def contentF : FsTree → Except Text Text
  | .file _ c _ => c
  | .dir _ _ _ => .error []

/-- The parse oracle used for concrete CLI runs: no errors, a one-token
tree, lossless code reconstruction. -/
def cexOracle : Text → Parsed :=
  fun s => ⟨.node .otherKind [.leaf 0 ['x'] false], [], s⟩

/-- The parse oracle used for the concrete syntax-error run: one error. -/
def errOracle : Text → Parsed :=
  fun s => ⟨.leaf 0 ['x'] false, [['e']], s⟩

/-! Part: whitespace predicates and the interleaving shape of output text -/

/-- A text of whitespace characters only. -/
def allWS (u : Text) : Prop := ∀ ch ∈ u, ch.isWhitespace = true

/-! Part: the printed text of a state, and its whitespace chunks -/

/-- The text of a printer state: its lines joined by newlines. -/
def outText (st : PState) : Text := joinLines (finalize st)

/-- The whitespace chunk a flush appends. -/
def wsOf (st : PState) : Text :=
  if st.pendingNL > 0 then
    '\n' :: joinLines (List.replicate (st.pendingNL - 1) emptyLine ++ [lineAt st.indent])
  else List.replicate st.pendingSp ' '

/-- The token texts recorded on a list of output lines, in order. -/
def lineToks : List RichLine → List Text
  | [] => []
  | L :: Ls => L.toks ++ lineToks Ls

/-- The significant token sequence the printer lays into the output when
formatting a tree at the given width: the recorded tokens of its lines. -/
def prettyToks (t : CSTree) (w : Option Nat) : List Text :=
  lineToks (formatLines t w)

/-- A text consisting of the given token texts, verbatim and in order, with
runs of whitespace characters (possibly empty) interleaved before, between
and after them: the shape of formatter output, which changes only the
whitespace around the unchanged tokens, comments and literals. -/
inductive WSplit : Text → List Text → Prop
  | nil : WSplit [] []
  | ws {t : Text} {ts : List Text} (u : Text) : allWS u → WSplit t ts →
      WSplit (t ++ u) ts
  | tok {t : Text} {ts : List Text} (w : Text) : WSplit t ts →
      WSplit (t ++ w) (ts ++ [w])

/-- The tree for the C2 witness: a stored definition with an equation and a
comment token. -/
def w2tree : CSTree :=
  .node .storedDefinition [
    .node .classDefinition [
      .node .otherKind [.leaf 0 "model".toList false, .leaf 0 "A".toList false],
      .node .equationSection [
        .leaf 0 "equation".toList false,
        .node .equation [.leaf 0 "x".toList false, .leaf 0 "=".toList false,
          .node .binaryExpr [.leaf 0 "1".toList false, .leaf 1 "+".toList false,
            .leaf 0 "2".toList false],
          .leaf 0 ";".toList false],
        .leaf 0 "// a b".toList true],
      .node .otherKind [.leaf 0 "end".toList false, .leaf 0 "A;".toList false]]]

/-- A concrete parser for the C2 witness: constant, and lossless on the
formatted output by the key lemma. -/
def w2parse : Text → CSTree := fun _ => w2tree

/-- A two-member stored definition with three blank lines before the second
member. -/
def w1tree : CSTree :=
  .node .storedDefinition [
    .node .otherKind [.leaf 0 "model".toList false, .leaf 0 "A;".toList false],
    .node .otherKind [.leaf 3 "model".toList false, .leaf 0 "B;".toList false]]

/-- A concrete parser for the C1 witness: it parses the original source to
`w1tree` and the formatted output to its blank-collapsed tree, as a
lossless parser would. -/
def w1parse : Text → CSTree :=
  fun s => if s = pretty_print w1tree then collapseBlanks w1tree else w1tree

/-! Part: the theorems: supporting lemmas, claim theorems, witnesses. -/

/-! Part: Width respect: untaken break points stay within the budget -/

mutual

/-- Flat rendering realises the flat width, marker case. -/
theorem flatR1_length : ∀ (m : Marker) (n : Nat), flatW1 m = some n →
    (flatR1 m).length = n
  | .tok t c, n => by
    intro h
    simp only [flatW1, Option.some.injEq] at h
    simp [flatR1, h]
  | .space k, n => by
    intro h
    simp only [flatW1, Option.some.injEq] at h
    simp [flatR1, ← h]
  | .soft, n => by
    intro h
    simp only [flatW1, Option.some.injEq] at h
    simp [flatR1, ← h]
  | .hard, n => by
    intro h
    simp [flatW1] at h
  | .blank k, n => by
    intro h
    simp only [flatW1, Option.some.injEq] at h
    simp [flatR1, ← h]
  | .indentInc, n => by
    intro h
    simp only [flatW1, Option.some.injEq] at h
    simp [flatR1, ← h]
  | .indentDec, n => by
    intro h
    simp only [flatW1, Option.some.injEq] at h
    simp [flatR1, ← h]
  | .group inner, n => by
    intro h
    simp only [flatW1] at h
    simpa [flatR1] using flatRL_length inner n h

/-- Flat rendering realises the flat width, sequence case. -/
theorem flatRL_length : ∀ (ms : List Marker) (n : Nat), flatWL ms = some n →
    (flatRL ms).length = n
  | [], n => by
    intro h
    simp only [flatWL, Option.some.injEq] at h
    simp [flatRL, ← h]
  | m :: ms, n => by
    intro h
    simp only [flatWL] at h
    cases h1 : flatW1 m with
    | none => rw [h1] at h; cases h
    | some a =>
      cases h2 : flatWL ms with
      | none => rw [h1, h2] at h; cases h
      | some b =>
        rw [h1, h2] at h
        cases h
        simp [flatRL, List.length_append, flatR1_length m a h1, flatRL_length ms b h2]

end

mutual

/-- Every recorded soft-break offset lies strictly inside the flat width,
marker case. -/
theorem flatOps1_lt : ∀ (m : Marker) (n : Nat), flatW1 m = some n →
    ∀ o ∈ flatOps1 m, o < n
  | .tok t c, n => by intro h o ho; simp [flatOps1] at ho
  | .space k, n => by intro h o ho; simp [flatOps1] at ho
  | .soft, n => by
    intro h o ho
    simp only [flatW1, Option.some.injEq] at h
    simp only [flatOps1, List.mem_singleton] at ho
    omega
  | .hard, n => by intro h o ho; simp [flatW1] at h
  | .blank k, n => by intro h o ho; simp [flatOps1] at ho
  | .indentInc, n => by intro h o ho; simp [flatOps1] at ho
  | .indentDec, n => by intro h o ho; simp [flatOps1] at ho
  | .group inner, n => by
    intro h o ho
    simp only [flatW1] at h
    simp only [flatOps1] at ho
    exact flatOpsL_lt inner n h o ho

/-- Every recorded soft-break offset lies strictly inside the flat width,
sequence case. -/
theorem flatOpsL_lt : ∀ (ms : List Marker) (n : Nat), flatWL ms = some n →
    ∀ o ∈ flatOpsL ms, o < n
  | [], n => by intro h o ho; simp [flatOpsL] at ho
  | m :: ms, n => by
    intro h o ho
    simp only [flatWL] at h
    cases h1 : flatW1 m with
    | none => rw [h1] at h; cases h
    | some a =>
      cases h2 : flatWL ms with
      | none => rw [h1, h2] at h; cases h
      | some b =>
        rw [h1, h2] at h
        cases h
        simp only [flatOpsL, List.mem_append, List.mem_map] at ho
        rcases ho with ho | ⟨o2, ho2, rfl⟩
        · exact lt_of_lt_of_le (flatOps1_lt m a h1 o ho) (Nat.le_add_right a b)
        · rw [flatR1_length m a h1]
          exact Nat.add_lt_add_left (flatOpsL_lt ms b h2 o2 ho2) a

end

/-- The fits-test with a configured width succeeds exactly on contents with
a flat width that fits from the current column. -/
theorem fits_some {W col : Nat} {inner : List Marker}
    (h : fits (some W) col inner = true) :
    ∃ fw, flatWL inner = some fw ∧ col + fw ≤ W := by
  unfold fits at h
  cases hf : flatWL inner with
  | none => rw [hf] at h; cases h
  | some fw =>
    rw [hf] at h
    exact ⟨fw, rfl, by simpa using of_decide_eq_true h⟩

/-- After flushing, the current line's length is exactly the column at
which the next output starts. -/
theorem flush_len (st : PState) : (flushTok st).cur.text.length = effCol st := by
  unfold flushTok effCol
  by_cases hp : st.pendingNL > 0
  · simp [hp, lineAt]
  · simp [hp]

/-- The lines of a flushed state, explicitly. -/
theorem finalize_flush (st : PState) :
    finalize (flushTok st) =
      if st.pendingNL > 0 then
        st.done ++ [st.cur] ++ List.replicate (st.pendingNL - 1) emptyLine ++
          [lineAt st.indent]
      else
        st.done ++ [{ st.cur with
          text := st.cur.text ++ List.replicate st.pendingSp ' ' }] := by
  unfold flushTok finalize
  by_cases hp : st.pendingNL > 0 <;> simp [hp]

/-- Flushing preserves the break-point bound. -/
theorem opsInv_flush {st : PState} {W : Nat} (h : opsInv st W) :
    opsInv (flushTok st) W := by
  intro L hL c hc
  rw [finalize_flush] at hL
  by_cases hp : st.pendingNL > 0
  · rw [if_pos hp] at hL
    rcases List.mem_append.1 hL with hL | hL
    · rcases List.mem_append.1 hL with hL | hL
      · rcases List.mem_append.1 hL with hL | hL
        · exact h L (List.mem_append.2 (Or.inl hL)) c hc
        · rw [List.mem_singleton.1 hL] at hc
          exact h st.cur (List.mem_append.2 (Or.inr (by simp))) c hc
      · rw [(List.mem_replicate.1 hL).2] at hc
        simp [emptyLine] at hc
    · rw [List.mem_singleton.1 hL] at hc
      simp [lineAt] at hc
  · rw [if_neg hp] at hL
    rcases List.mem_append.1 hL with hL | hL
    · exact h L (List.mem_append.2 (Or.inl hL)) c hc
    · rw [List.mem_singleton.1 hL] at hc
      exact h st.cur (List.mem_append.2 (Or.inr (by simp))) c (by simpa using hc)

mutual

/-- One printing step preserves the break-point bound: an untaken soft
break is only ever recorded inside a group that passed the fits-test, so
its column stays within the configured width. -/
theorem opsInv_render1 (W : Nat) : ∀ (m : Marker) (st : PState),
    opsInv st W → opsInv (render1 (some W) m st) W
  | .tok t c, st => by
    intro h
    have hf := opsInv_flush h
    unfold opsInv finalize at hf ⊢
    simp only [render1, emitTok]
    intro L hL c2 hc2
    simp only [List.mem_append, List.mem_singleton] at hL
    rcases hL with hL | rfl
    · exact hf L (by simp [hL]) c2 hc2
    · exact hf ⟨(flushTok st).cur.text, (flushTok st).cur.ops, (flushTok st).cur.toks⟩
        (by simp) c2 hc2
  | .space n, st => by
    intro h
    unfold opsInv finalize at h ⊢
    simpa [render1] using h
  | .soft, st => by
    intro h
    unfold opsInv finalize at h ⊢
    simpa [render1] using h
  | .hard, st => by
    intro h
    unfold opsInv finalize at h ⊢
    simpa [render1] using h
  | .blank n, st => by
    intro h
    unfold opsInv finalize at h ⊢
    simpa [render1] using h
  | .indentInc, st => by
    intro h
    unfold opsInv finalize at h ⊢
    simpa [render1] using h
  | .indentDec, st => by
    intro h
    unfold opsInv finalize at h ⊢
    simpa [render1] using h
  | .group inner, st => by
    intro h
    simp only [render1]
    by_cases hfits : fits (some W) (effCol st) inner = true
    · rw [if_pos hfits]
      obtain ⟨fw, hfw, hle⟩ := fits_some hfits
      have hf := opsInv_flush h
      unfold opsInv finalize at hf ⊢
      simp only [emitFlat]
      intro L hL c2 hc2
      simp only [List.mem_append, List.mem_singleton] at hL
      rcases hL with hL | rfl
      · exact hf L (by simp [hL]) c2 hc2
      · simp only [List.mem_append, List.mem_map] at hc2
        rcases hc2 with hc2 | ⟨o, ho, rfl⟩
        · exact hf ⟨(flushTok st).cur.text, (flushTok st).cur.ops, (flushTok st).cur.toks⟩
            (by simp) c2 hc2
        · rw [flush_len st]
          have := flatOpsL_lt inner fw hfw o ho
          omega
    · rw [if_neg hfits]
      exact opsInv_renderL W inner st h

/-- The printing pass preserves the break-point bound. -/
theorem opsInv_renderL (W : Nat) : ∀ (ms : List Marker) (st : PState),
    opsInv st W → opsInv (renderL (some W) ms st) W
  | [], st => by
    intro h
    simpa [renderL] using h
  | m :: ms, st => by
    intro h
    simp only [renderL]
    exact opsInv_renderL W ms _ (opsInv_render1 W m st h)

end

/-- C3 (amended): with a configured maximum width `W`, every output line
either fits in `W` or all of its available (untaken) soft-break points lie
at columns within `W` — overflow can only happen past the last available
break point, e.g. on a single over-long token or on trailing tokens with no
break point; a line can exceed `W` while still containing more than one
token and an available break point in its fitting prefix. -/
theorem claimC3_width_respect (t : CSTree) (W : Nat) :
    ∀ L ∈ formatLines t (some W), L.text.length ≤ W ∨ ∀ c ∈ L.ops, c ≤ W := by
  intro L hL
  right
  have h0 : opsInv initState W := by
    intro L2 hL2 c hc
    simp only [finalize, initState, List.nil_append, List.mem_singleton] at hL2
    subst hL2
    simp [emptyLine] at hc
  have hall := opsInv_renderL W (gen t) initState h0
  exact hall L hL

/-- C3 counterexample: at width 6 the tree above renders the single line
`aa bb cccc dddd` of length 15: it exceeds the width, contains no token
longer than the width (so it is not a single over-long token), and it does
have an available break point (column 2), so neither stated exception
applies. -/
theorem claimC3_counterexample :
    ∃ L ∈ formatLines cexTreeC3 (some 6),
      6 < L.text.length ∧ (∀ tk ∈ L.toks, tk.length ≤ 6) ∧ L.ops ≠ [] := by
  decide

/-- C3 witness: the amended statement applied to the concrete overflowing
line of the counterexample tree. -/
theorem claimC3_witness :
    (⟨"aa bb cccc dddd".toList, [2],
      ["aa".toList, "bb".toList, "cccc".toList, "dddd".toList]⟩ : RichLine).text.length ≤ 6 ∨
    ∀ c ∈ (⟨"aa bb cccc dddd".toList, [2],
      ["aa".toList, "bb".toList, "cccc".toList, "dddd".toList]⟩ : RichLine).ops, c ≤ 6 :=
  claimC3_width_respect cexTreeC3 6 _ (by decide)

/-- Exit-code aggregation of the per-file loop: a completed run's code is 1
exactly when some newly produced outcome is a failure, and the incoming code
otherwise. -/
theorem filesLoop_spec (pp : CSTree → Option Nat → Text) (oracle : Text → Parsed)
    (check : Bool) (ll : Option Nat) (eol : Text) :
    ∀ (fs : List FsTree) (code : Nat) (acc : List (Text × Outcome)) (r : RunResult),
      filesLoop pp oracle check ll eol fs code acc = .ok r →
      ∃ outs, r.outcomes = acc ++ outs ∧
        r.code = (if outs.any (fun po => outcomeFails po.2) then 1 else code) := by
  intro fs
  induction fs with
  | nil =>
    intro code acc r h
    simp only [filesLoop] at h
    cases h
    exact ⟨[], by simp⟩
  | cons f fs ih =>
    intro code acc r h
    cases f with
    | file p c wOk =>
      simp only [filesLoop] at h
      split at h
      · rename_i txt heq
        split at h
        · obtain ⟨outs, ho, hc⟩ := ih _ _ r h
          refine ⟨(p, .written txt) :: outs,
            by rw [ho, List.append_assoc, List.singleton_append], ?_⟩
          simpa [outcomeFails] using hc
        · cases h
      · obtain ⟨outs, ho, hc⟩ := ih _ _ r h
        refine ⟨(p, processFileWith pp oracle check ll eol p c) :: outs,
          by rw [ho, List.append_assoc, List.singleton_append], ?_⟩
        rw [List.any_cons]
        cases hfo : outcomeFails (processFileWith pp oracle check ll eol p c) with
        | false =>
          rw [hfo] at hc
          simpa using hc
        | true =>
          rw [hfo] at hc
          simp only [Bool.true_or, if_true]
          cases houts : outs.any (fun po => outcomeFails po.2) <;> simp [houts] at hc <;> exact hc
    | dir p ro es =>
      simp only [filesLoop] at h
      exact ih code acc r h

/-- A completed run over file nodes produces exactly one outcome per file,
in order, each computed by the per-file body. -/
theorem filesLoop_out (pp : CSTree → Option Nat → Text) (oracle : Text → Parsed)
    (check : Bool) (ll : Option Nat) (eol : Text) :
    ∀ (fs : List FsTree) (code : Nat) (acc : List (Text × Outcome)) (r : RunResult),
      (∀ f ∈ fs, ∃ p c w, f = FsTree.file p c w) →
      filesLoop pp oracle check ll eol fs code acc = .ok r →
      r.outcomes = acc ++ fs.map
        (fun f => (pathF f, processFileWith pp oracle check ll eol (pathF f) (contentF f))) := by
  intro fs
  induction fs with
  | nil =>
    intro code acc r _ h
    simp only [filesLoop] at h
    cases h
    simp
  | cons f fs ih =>
    intro code acc r hf h
    cases f with
    | file p c wOk =>
      simp only [filesLoop] at h
      split at h
      · rename_i txt heq
        split at h
        · have := ih _ _ r (fun x hx => hf x (by simp [hx])) h
          rw [this]
          simp [pathF, contentF, heq]
        · cases h
      · have := ih _ _ r (fun x hx => hf x (by simp [hx])) h
        rw [this]
        simp [pathF, contentF]
    | dir pd ro es =>
      obtain ⟨p, c, w, hpc⟩ := hf (FsTree.dir pd ro es) (by simp)
      cases hpc

/-- Every outcome of a completed run not already in the accumulator was
produced by the per-file body on that path. -/
theorem filesLoop_mem (pp : CSTree → Option Nat → Text) (oracle : Text → Parsed)
    (check : Bool) (ll : Option Nat) (eol : Text) :
    ∀ (fs : List FsTree) (code : Nat) (acc : List (Text × Outcome)) (r : RunResult),
      filesLoop pp oracle check ll eol fs code acc = .ok r →
      ∀ po ∈ r.outcomes, po ∈ acc ∨
        ∃ c, po.2 = processFileWith pp oracle check ll eol po.1 c := by
  intro fs
  induction fs with
  | nil =>
    intro code acc r h po hpo
    simp only [filesLoop] at h
    cases h
    exact Or.inl hpo
  | cons f fs ih =>
    intro code acc r h po hpo
    cases f with
    | file p c wOk =>
      simp only [filesLoop] at h
      split at h
      · rename_i txt heq
        split at h
        · rcases ih _ _ r h po hpo with hin | hex
          · rcases List.mem_append.1 hin with hin | hin
            · exact Or.inl hin
            · simp only [List.mem_singleton] at hin
              subst hin
              exact Or.inr ⟨c, by simp [heq]⟩
          · exact Or.inr hex
        · cases h
      · rcases ih _ _ r h po hpo with hin | hex
        · rcases List.mem_append.1 hin with hin | hin
          · exact Or.inl hin
          · simp only [List.mem_singleton] at hin
            subst hin
            exact Or.inr ⟨c, by simp⟩
        · exact Or.inr hex
    | dir pd ro es =>
      simp only [filesLoop] at h
      exact ih _ _ r h po hpo

mutual

/-- Directory traversal yields only file nodes with the `mo` extension. -/
theorem getFiles_mo : ∀ (d : FsTree) (l : List FsTree), getFilesFromDir d = .ok l →
    ∀ f ∈ l, ∃ p c w, f = FsTree.file p c w ∧ is_modelica p = true
  | .file p c w, l => by
    intro h f hf
    simp only [getFilesFromDir] at h
    by_cases hmo : is_modelica p = true
    · rw [if_pos hmo] at h
      cases h
      simp only [List.mem_singleton] at hf
      exact ⟨p, c, w, by simp [hf, hmo]⟩
    · rw [if_neg hmo] at h
      cases h
      simp at hf
  | .dir p ro es, l => by
    intro h f hf
    simp only [getFilesFromDir] at h
    by_cases hro : ro = true
    · rw [if_pos hro] at h
      exact getFilesL_mo es l h f hf
    · rw [if_neg hro] at h
      cases h

/-- Entry-list traversal yields only file nodes with the `mo` extension. -/
theorem getFilesL_mo : ∀ (es : List FsTree) (l : List FsTree), getFilesList es = .ok l →
    ∀ f ∈ l, ∃ p c w, f = FsTree.file p c w ∧ is_modelica p = true
  | [], l => by
    intro h f hf
    simp only [getFilesList] at h
    cases h
    simp at hf
  | e :: es, l => by
    intro h f hf
    simp only [getFilesList, bind, Except.bind] at h
    cases he : getFilesFromDir e with
    | error m => rw [he] at h; cases h
    | ok a =>
      rw [he] at h
      cases hes : getFilesList es with
      | error m => rw [hes] at h; cases h
      | ok b =>
        rw [hes] at h
        cases h
        rcases List.mem_append.1 hf with hf | hf
        · exact getFiles_mo e a he f hf
        · exact getFilesL_mo es b hes f hf

end

/-- Argument expansion yields only file nodes. -/
theorem expandArgs_files : ∀ (args : List FsTree) (files : List FsTree),
    expandArgs args = .ok files → ∀ f ∈ files, ∃ p c w, f = FsTree.file p c w := by
  intro args
  induction args with
  | nil =>
    intro files h f hf
    simp only [expandArgs] at h
    cases h
    simp at hf
  | cons a as2 ih =>
    intro files h f hf
    simp only [expandArgs, bind, Except.bind] at h
    cases ha : expandArg a with
    | error m => rw [ha] at h; cases h
    | ok x =>
      rw [ha] at h
      cases has : expandArgs as2 with
      | error m => rw [has] at h; cases h
      | ok y =>
        rw [has] at h
        cases h
        rcases List.mem_append.1 hf with hf | hf
        · cases a with
          | file p c w =>
            simp only [expandArg] at ha
            cases ha
            simp only [List.mem_singleton] at hf
            exact ⟨p, c, w, hf⟩
          | dir p ro es =>
            obtain ⟨p2, c2, w2, _⟩ := getFiles_mo _ x ha f hf
            exact ⟨p2, c2, w2, by tauto⟩
        · exact ih y has f hf

/-! Part: Claim theorems for the command-line layer -/

/-- C7: the convenience entry points are exactly the composition of the
marker-generation pass and the printing pass: `pretty_print tree` equals
`print tree (format tree none)`, and `pretty_print_with_line_length tree w`
equals `print tree (format tree (some w))`. -/
theorem claimC7_composition (t : CSTree) :
    pretty_print t = print t (format t none) ∧
    ∀ w : Nat, pretty_print_with_line_length t w = print t (format t (some w)) :=
  ⟨rfl, fun _ => rfl⟩

/-- C6: when a parsed file has a non-empty error list, the per-file
processing reports exactly those errors, its result does not depend on the
formatting core at all (the core is never invoked), the file is neither
checked nor rewritten, and any completed run containing that outcome exits
with code 1. -/
theorem claimC6_error_gating (pp pp2 : CSTree → Option Nat → Text)
    (oracle : Text → Parsed) (check : Bool) (ll : Option Nat) (eol : Text)
    (p : Text) (content : Except Text Text) (src : Text)
    (hread : read_file p content = .ok src)
    (herr : (oracle src).errors ≠ []) :
    processFileWith pp oracle check ll eol p content =
      .parseErrors (oracle src).errors ∧
    processFileWith pp oracle check ll eol p content =
      processFileWith pp2 oracle check ll eol p content ∧
    outcomeFails (Outcome.parseErrors (oracle src).errors) = true ∧
    ∀ (args : List FsTree) (r : RunResult),
      format_filesWith pp args check ll oracle eol = .ok r →
      (p, Outcome.parseErrors (oracle src).errors) ∈ r.outcomes → r.code = 1 := by
  have hpe : ∀ pq : CSTree → Option Nat → Text,
      processFileWith pq oracle check ll eol p content =
        .parseErrors (oracle src).errors := by
    intro pq
    cases herr2 : (oracle src).errors with
    | nil => exact absurd herr2 herr
    | cons e es => simp [processFileWith, hread, herr2]
  refine ⟨hpe pp, (hpe pp).trans (hpe pp2).symm, rfl, ?_⟩
  intro args r hr hmem
  simp only [format_filesWith, bind, Except.bind] at hr
  cases hex : expandArgs args with
  | error m => rw [hex] at hr; cases hr
  | ok files =>
    rw [hex] at hr
    obtain ⟨outs, ho, hc⟩ := filesLoop_spec pp oracle check ll eol files 0 [] r hr
    rw [ho] at hmem
    simp only [List.nil_append] at hmem
    have hany : outs.any (fun po => outcomeFails po.2) = true :=
      List.any_eq_true.2 ⟨_, hmem, rfl⟩
    rw [hc, hany, if_pos rfl]

/-- C9: for a successfully read and parsed file, the text the CLI writes
(or compares in check mode) is exactly the core's output followed by one
platform line terminator (`"\r\n"` on Windows, `"\n"` otherwise), appended
by the caller after the core returned. -/
theorem claimC9_eol (windows : Bool) (oracle : Text → Parsed) (ll : Option Nat)
    (p : Text) (content : Except Text Text) (src : Text)
    (hread : read_file p content = .ok src) (herr : (oracle src).errors = []) :
    EOL true = "\r\n".toList ∧ EOL false = "\n".toList ∧
    processFile oracle false ll (EOL windows) p content =
      .written (prettyBoth (oracle src).cst ll ++ EOL windows) ∧
    processFile oracle true ll (EOL windows) p content =
      (if prettyBoth (oracle src).cst ll ++ EOL windows = (oracle src).code
       then Outcome.checkPassed else Outcome.checkFailed) := by
  refine ⟨rfl, rfl, ?_, ?_⟩ <;>
    simp [processFile, processFileWith, hread, herr]

/-- C10: a path passed directly on the command line whose extension is not
`mo` is turned into a reported read error that sets the failure exit code
(no extension filtering happens on direct arguments), whereas directory
traversal returns only the files whose extension is `mo`: a non-Modelica
file inside a directory argument is silently dropped, producing no outcome,
no diagnostic and no exit-code effect. -/
theorem claimC10_extension_asymmetry :
    (∀ (p : Text) (content : Except Text Text),
       is_modelica p = false →
       read_file p content = .error (p ++ " is not a Modelica file".toList) ∧
       ∀ (pp : CSTree → Option Nat → Text) (oracle : Text → Parsed)
         (check : Bool) (ll : Option Nat) (eol : Text),
         processFileWith pp oracle check ll eol p content =
           .readError (p ++ " is not a Modelica file".toList) ∧
         outcomeFails (processFileWith pp oracle check ll eol p content) = true) ∧
    (∀ (p : Text) (c : Except Text Text) (w : Bool),
       expandArg (.file p c w) = .ok [.file p c w]) ∧
    (∀ (d : FsTree) (l : List FsTree), getFilesFromDir d = .ok l →
       ∀ f ∈ l, ∃ p c w, f = FsTree.file p c w ∧ is_modelica p = true) := by
  refine ⟨?_, fun p c w => rfl, getFiles_mo⟩
  intro p content hmo
  have hrf : read_file p content = .error (p ++ " is not a Modelica file".toList) := by
    simp [read_file, hmo]
  exact ⟨hrf, fun pp oracle check ll eol => by
    simp [processFileWith, hrf, outcomeFails]⟩

/-- C4: in check mode the per-file outcome is decided by a byte-for-byte
comparison of the formatted output plus terminator against the original
file content (`tokens().code()`, which a lossless parser reconstructs as
the source), a mismatch sets exit code 1, and no run in check mode ever
produces a write. -/
theorem claimC4_check_mode (oracle : Text → Parsed)
    (hcode : ∀ s, (oracle s).code = s) (ll : Option Nat) (eol : Text) :
    (∀ (p : Text) (content : Except Text Text) (src : Text),
       read_file p content = .ok src → (oracle src).errors = [] →
       processFile oracle true ll eol p content =
         (if prettyBoth (oracle src).cst ll ++ eol = src
          then Outcome.checkPassed else Outcome.checkFailed)) ∧
    (∀ (p : Text) (content : Except Text Text) (txt : Text),
       processFile oracle true ll eol p content ≠ .written txt) ∧
    (∀ (args : List FsTree) (r : RunResult),
       format_files args true ll oracle eol = .ok r →
       (∀ po ∈ r.outcomes, ∀ txt, po.2 ≠ Outcome.written txt) ∧
       (∀ po ∈ r.outcomes, po.2 = Outcome.checkFailed → r.code = 1)) := by
  have hnw : ∀ (p : Text) (content : Except Text Text) (txt : Text),
      processFile oracle true ll eol p content ≠ .written txt := by
    intro p content txt
    simp only [processFile, processFileWith]
    cases hr : read_file p content with
    | error e => simp
    | ok src =>
      by_cases he : (oracle src).errors.isEmpty
      · simp only [he, if_true]
        split <;> simp
      · simp [he]
  refine ⟨?_, hnw, ?_⟩
  · intro p content src hread herr
    simp [processFile, processFileWith, hread, herr, hcode src]
  · intro args r hr
    simp only [format_files, format_filesWith, bind, Except.bind] at hr
    cases hex : expandArgs args with
    | error m => rw [hex] at hr; cases hr
    | ok files =>
      rw [hex] at hr
      constructor
      · intro po hpo txt
        rcases filesLoop_mem prettyBoth oracle true ll eol files 0 [] r hr po hpo with hin | ⟨c, hc⟩
        · simp at hin
        · rw [hc]
          exact hnw po.1 c txt
      · intro po hpo hfail
        obtain ⟨outs, ho, hc⟩ := filesLoop_spec prettyBoth oracle true ll eol files 0 [] r hr
        rw [ho] at hpo
        simp only [List.nil_append] at hpo
        have hany : outs.any (fun q => outcomeFails q.2) = true :=
          List.any_eq_true.2 ⟨po, hpo, by rw [hfail]; rfl⟩
        rw [hc, hany, if_pos rfl]

/-- An argument list without the `--line-length` flag never changes the
line-length configuration: the option loop either exits with status 1 or
hands the unchanged configuration to `format_files`. -/
theorem argLoop_no_lineLength : ∀ (args : List Text) (check : Bool) (ll : Option Nat),
    "--line-length".toList ∉ args →
    argLoop args check ll = .error () ∨
      ∃ c2 ps, argLoop args check ll = .ok (c2, ll, ps) := by
  intro args
  induction args with
  | nil => intro check ll _; exact Or.inl rfl
  | cons a rest ih =>
    intro check ll h
    have hll : a ≠ "--line-length".toList := fun he => h (he ▸ List.mem_cons_self a rest)
    by_cases hc : a = "--check".toList
    · simp only [argLoop, if_pos hc]
      exact ih true ll (fun hm => h (List.mem_cons_of_mem _ hm))
    · simp only [argLoop, if_neg hc, if_neg hll]
      by_cases hd : a.head? = some '-'
      · rw [if_pos hd]; exact Or.inl rfl
      · rw [if_neg hd]; exact Or.inr ⟨check, a :: rest, rfl⟩

/-- C8 (amended): the `--line-length` flag accepts exactly the positive
integers representable in the 64-bit `usize` (an accepted numeral whose
value exceeds `usizeMax` is a parse error); any value that does not parse
this way, or parses to zero, exits with status 1 before any file is
formatted; a valid value is recorded as the configured width; when the flag
is absent the configuration stays `none` and the unconstrained entry point
`pretty_print` is used. -/
theorem claimC8_line_length_flag :
    (∀ (v : Text) (rest : List Text) (check : Bool) (ll : Option Nat),
       (∀ n, parseUsize v = some n → n = 0) →
       argLoop ("--line-length".toList :: v :: rest) check ll = .error ()) ∧
    (∀ (v : Text) (rest : List Text) (check : Bool) (ll : Option Nat) (n : Nat),
       parseUsize v = some n → 0 < n →
       argLoop ("--line-length".toList :: v :: rest) check ll =
         argLoop rest check (some n)) ∧
    (∀ (v : Text) (n : Nat),
       parseUsize v = some n ↔ numeralValue v = some n ∧ n ≤ usizeMax) ∧
    (∀ (args : List Text) (check : Bool) (ll : Option Nat),
       "--line-length".toList ∉ args →
       argLoop args check ll = .error () ∨
         ∃ c2 ps, argLoop args check ll = .ok (c2, ll, ps)) ∧
    (∀ t : CSTree, prettyBoth t none = pretty_print t) := by
  refine ⟨?_, ?_, ?_, argLoop_no_lineLength, fun t => rfl⟩
  · intro v rest check ll hv
    simp only [argLoop, argLL, if_true]
    cases hp : parseUsize v with
    | none => simp
    | some n =>
      have h0 := hv n hp
      subst h0
      simp
  · intro v rest check ll n hp hn
    simp only [argLoop, argLL, if_true, hp]
    simp [hn]
  · intro v n
    cases hv : numeralValue v with
    | none => simp [parseUsize, hv]
    | some m =>
      simp only [parseUsize, hv]
      by_cases hm : m ≤ usizeMax
      · rw [if_pos hm]
        constructor
        · intro h
          cases h
          exact ⟨rfl, hm⟩
        · rintro ⟨h1, h2⟩
          cases h1
          rfl
      · rw [if_neg hm]
        constructor
        · intro h
          cases h
        · rintro ⟨h1, h2⟩
          cases h1
          exact absurd h2 hm

/-- C8 counterexample: `18446744073709551616` (that is `2 ^ 64`) is a
positive integer, yet `--line-length 18446744073709551616` is rejected
(usize overflow) and the process exits with status 1, so the flag does not
accept every positive integer. -/
theorem claimC8_counterexample :
    numeralValue "18446744073709551616".toList = some 18446744073709551616 ∧
    (18446744073709551616 : Nat) = 2 ^ 64 ∧
    (0 : Nat) < 18446744073709551616 ∧
    parseUsize "18446744073709551616".toList = none ∧
    mofmtMain ["--line-length".toList, "18446744073709551616".toList, "a.mo".toList] =
      .usageExit :=
  ⟨by decide, by norm_num, by norm_num, by decide, by decide⟩

/-- C8 witness: concrete runs of the amended statement: a non-numeric value
and a zero value exit with status 1, a valid value is recorded, and the
absent flag leaves the width unconstrained. -/
theorem claimC8_witness :
    argLoop ["--line-length".toList, "abc".toList, "f.mo".toList] false none = .error () ∧
    argLoop ["--line-length".toList, "0".toList, "f.mo".toList] false none = .error () ∧
    argLoop ["--line-length".toList, "80".toList, "f.mo".toList] false none =
      argLoop ["f.mo".toList] false (some 80) ∧
    prettyBoth (CSTree.leaf 0 ['x'] false) none = pretty_print (CSTree.leaf 0 ['x'] false) :=
  ⟨claimC8_line_length_flag.1 _ _ _ _
     (fun n h => by
       rw [show parseUsize "abc".toList = none from rfl] at h
       cases h),
   claimC8_line_length_flag.1 _ _ _ _
     (fun n h => by
       rw [show parseUsize "0".toList = some 0 from rfl] at h
       cases h
       rfl),
   claimC8_line_length_flag.2.1 _ _ _ _ 80 rfl (by norm_num),
   claimC8_line_length_flag.2.2.2.2 _⟩

/-- C5 (amended): whenever a run completes without a fatal abort (panics
happen exactly on directory-read and file-write failures), every expanded
file — including those with read failures, wrong extensions or syntax
errors — produces its own per-file outcome, in order, processing continues
past failures, and the exit code is nonzero exactly when some file failed
to read, failed to parse, or failed its check. -/
theorem claimC5_aggregation (args : List FsTree) (check : Bool) (ll : Option Nat)
    (oracle : Text → Parsed) (eol : Text) (r : RunResult)
    (h : format_files args check ll oracle eol = .ok r) :
    ∃ files, expandArgs args = .ok files ∧
      (∀ f ∈ files, ∃ p c w, f = FsTree.file p c w) ∧
      r.outcomes = files.map
        (fun f => (pathF f, processFile oracle check ll eol (pathF f) (contentF f))) ∧
      (r.code ≠ 0 ↔ ∃ po ∈ r.outcomes, outcomeFails po.2 = true) := by
  simp only [format_files, format_filesWith, bind, Except.bind] at h
  cases hex : expandArgs args with
  | error m => rw [hex] at h; cases h
  | ok files =>
    rw [hex] at h
    have hfiles := expandArgs_files args files hex
    refine ⟨files, rfl, hfiles, ?_, ?_⟩
    · have := filesLoop_out prettyBoth oracle check ll eol files 0 [] r hfiles h
      simpa [processFile] using this
    · obtain ⟨outs, ho, hc⟩ := filesLoop_spec prettyBoth oracle check ll eol files 0 [] r h
      simp only [List.nil_append] at ho
      rw [ho, hc]
      cases hany : outs.any (fun po => outcomeFails po.2) with
      | false =>
        simp only [Bool.false_eq_true, if_false]
        constructor
        · intro hne
          exact absurd rfl hne
        · rintro ⟨po, hpo, hfail⟩
          have hx : outs.any (fun q => outcomeFails q.2) = true :=
            List.any_eq_true.2 ⟨po, hpo, hfail⟩
          rw [hany] at hx
          cases hx
      | true =>
        simp only [if_pos rfl]
        constructor
        · intro _
          exact List.any_eq_true.1 hany
        · intro _
          exact one_ne_zero

/-- C5 counterexample: a run with two readable, error-free files whose
first file is not writable aborts with a panic at the first file: the
second file is never processed and no aggregated exit code is produced,
contradicting report-and-continue for I/O failures. -/
theorem claimC5_counterexample :
    format_files
      [FsTree.file "a.mo".toList (.ok ['x']) false,
       FsTree.file "b.mo".toList (.ok ['x']) true]
      false none cexOracle "\n".toList
      = .error ("a.mo".toList ++ ": error writing a file".toList) := by
  decide

/-- C4 witness: a concrete check-mode run on a file whose formatted output
differs from its content. -/
theorem claimC4_witness :
    processFile cexOracle true none "\n".toList "a.mo".toList (.ok ['x']) =
      (if prettyBoth (cexOracle ['x']).cst none ++ "\n".toList = ['x']
       then Outcome.checkPassed else Outcome.checkFailed) :=
  (claimC4_check_mode cexOracle (fun _ => rfl) none "\n".toList).1
    "a.mo".toList (.ok ['x']) ['x'] (by decide) rfl

/-- C6 witness: a concrete file with a syntax error is reported as such and
the outcome is the same for two different formatting cores. -/
theorem claimC6_witness :
    processFileWith prettyBoth errOracle false none "\n".toList "a.mo".toList (.ok ['x']) =
      .parseErrors (errOracle ['x']).errors ∧
    processFileWith prettyBoth errOracle false none "\n".toList "a.mo".toList (.ok ['x']) =
      processFileWith (fun _ _ => []) errOracle false none "\n".toList "a.mo".toList (.ok ['x']) :=
  ⟨(claimC6_error_gating prettyBoth (fun _ _ => []) errOracle false none "\n".toList
      "a.mo".toList (.ok ['x']) ['x'] (by decide) (by decide)).1,
   (claimC6_error_gating prettyBoth (fun _ _ => []) errOracle false none "\n".toList
      "a.mo".toList (.ok ['x']) ['x'] (by decide) (by decide)).2.1⟩

/-- C9 witness: a concrete write-mode run produces exactly the core output
followed by the platform terminator. -/
theorem claimC9_witness :
    processFile cexOracle false none (EOL false) "a.mo".toList (.ok ['x']) =
      .written (prettyBoth (cexOracle ['x']).cst none ++ EOL false) :=
  ((claimC9_eol false cexOracle none "a.mo".toList (.ok ['x']) ['x']
      (by decide) (by decide)).2.2).1

/-- C10 witness: a concrete non-`mo` direct path is rejected as a read
error, while directory traversal of a mixed directory keeps exactly the
`mo` file. -/
theorem claimC10_witness :
    read_file "a.txt".toList (.ok ['x']) =
      .error ("a.txt".toList ++ " is not a Modelica file".toList) ∧
    ∀ f ∈ [FsTree.file "b.mo".toList (.ok ([] : Text)) true],
      ∃ p c w, f = FsTree.file p c w ∧ is_modelica p = true :=
  ⟨(claimC10_extension_asymmetry.1 "a.txt".toList (.ok ['x']) (by decide)).1,
   claimC10_extension_asymmetry.2.2
     (.dir "d".toList true
       [.file "a.txt".toList (.ok []) true, .file "b.mo".toList (.ok []) true])
     [FsTree.file "b.mo".toList (.ok []) true] (by decide)⟩

/-- Runs of spaces are whitespace. -/
theorem allWS_spaces (n : Nat) : allWS (List.replicate n ' ') := by
  intro ch hch
  rw [(List.mem_replicate.1 hch).2]
  decide

/-- Joining distributes over appending nonempty line lists. -/
theorem joinLines_append : ∀ (xs ys : List RichLine), xs ≠ [] → ys ≠ [] →
    joinLines (xs ++ ys) = joinLines xs ++ '\n' :: joinLines ys
  | [], _, hx, _ => absurd rfl hx
  | [x], ys, _, hy => by
    cases ys with
    | nil => exact absurd rfl hy
    | cons y ys2 => simp [joinLines]
  | x :: x2 :: xs2, ys, _, hy => by
    have ih := joinLines_append (x2 :: xs2) ys (by simp) hy
    calc joinLines ((x :: x2 :: xs2) ++ ys)
        = x.text ++ '\n' :: joinLines ((x2 :: xs2) ++ ys) := by
          simp [joinLines]
      _ = x.text ++ '\n' :: (joinLines (x2 :: xs2) ++ '\n' :: joinLines ys) := by
          rw [ih]
      _ = (x.text ++ '\n' :: joinLines (x2 :: xs2)) ++ '\n' :: joinLines ys := by
          simp
      _ = joinLines (x :: x2 :: xs2) ++ '\n' :: joinLines ys := by
          simp [joinLines]

/-- Extending the text of the final line extends the joined text. -/
theorem joinLines_snoc_ext : ∀ (xs : List RichLine) (l : RichLine) (a : Text)
    (o : List Nat) (tk : List Text),
    joinLines (xs ++ [⟨l.text ++ a, o, tk⟩]) = joinLines (xs ++ [l]) ++ a
  | [], l, a, o, tk => by simp [joinLines]
  | [x], l, a, o, tk => by simp [joinLines]
  | x :: x2 :: xs2, l, a, o, tk => by
    have ih := joinLines_snoc_ext (x2 :: xs2) l a o tk
    simp only [List.cons_append] at ih
    simp only [List.cons_append, joinLines]
    simp only [List.append_eq]
    rw [ih]
    simp

/-- Joined whitespace-only lines are whitespace. -/
theorem joinLines_ws : ∀ ls : List RichLine, (∀ L ∈ ls, allWS L.text) →
    allWS (joinLines ls)
  | [], _ => by intro ch hch; simp [joinLines] at hch
  | [x], h => by
    intro ch hch
    simp only [joinLines] at hch
    exact h x (by simp) ch hch
  | x :: x2 :: xs2, h => by
    intro ch hch
    simp only [joinLines, List.mem_append, List.mem_cons] at hch
    rcases hch with hch | hch | hch
    · exact h x (by simp) ch hch
    · rw [hch]; decide
    · exact joinLines_ws (x2 :: xs2) (fun L hL => h L (by simp [List.mem_cons] at hL ⊢; tauto)) ch hch

/-- Flushing appends exactly its whitespace chunk to the text. -/
theorem outText_flush (st : PState) : outText (flushTok st) = outText st ++ wsOf st := by
  unfold outText wsOf
  rw [finalize_flush]
  by_cases hp : st.pendingNL > 0
  · rw [if_pos hp, if_pos hp]
    have hassoc : st.done ++ [st.cur] ++ List.replicate (st.pendingNL - 1) emptyLine ++
        [lineAt st.indent]
        = (st.done ++ [st.cur]) ++
          (List.replicate (st.pendingNL - 1) emptyLine ++ [lineAt st.indent]) := by
      simp
    rw [hassoc, joinLines_append _ _ (by simp) (by simp)]
    rfl
  · rw [if_neg hp, if_neg hp]
    exact joinLines_snoc_ext st.done st.cur (List.replicate st.pendingSp ' ')
      st.cur.ops st.cur.toks

/-- The flush chunk is whitespace. -/
theorem wsOf_allWS (st : PState) : allWS (wsOf st) := by
  unfold wsOf
  by_cases hp : st.pendingNL > 0
  · rw [if_pos hp]
    intro ch hch
    simp only [List.mem_cons] at hch
    rcases hch with hch | hch
    · rw [hch]; decide
    · refine joinLines_ws _ ?_ ch hch
      intro L hL
      simp only [List.mem_append, List.mem_replicate, List.mem_singleton] at hL
      rcases hL with ⟨_, rfl⟩ | rfl
      · intro c2 hc2; simp [emptyLine] at hc2
      · intro c2 hc2
        simp only [lineAt] at hc2
        rw [(List.mem_replicate.1 hc2).2]
        decide
  · rw [if_neg hp]
    exact allWS_spaces st.pendingSp

/-- Emitting a token appends its text to the flushed text. -/
theorem outText_emitTok (st : PState) (t : Text) :
    outText (emitTok st t) = outText (flushTok st) ++ t := by
  unfold outText emitTok finalize
  exact joinLines_snoc_ext (flushTok st).done (flushTok st).cur t
    (flushTok st).cur.ops ((flushTok st).cur.toks ++ [t])

/-- Emitting a flat group appends its flat rendering to the flushed text. -/
theorem outText_emitFlat (st : PState) (inner : List Marker) :
    outText (emitFlat st inner) = outText (flushTok st) ++ flatRL inner := by
  unfold outText emitFlat finalize
  exact joinLines_snoc_ext (flushTok st).done (flushTok st).cur (flatRL inner)
    ((flushTok st).cur.ops ++ (flatOpsL inner).map
      (fun o => (flushTok st).cur.text.length + o))
    ((flushTok st).cur.toks ++ mtoksL inner)

/-- Marker token texts distribute over concatenation. -/
theorem mtoksL_append : ∀ a b : List Marker, mtoksL (a ++ b) = mtoksL a ++ mtoksL b
  | [], b => by simp [mtoksL]
  | m :: ms, b => by simp [mtoksL, mtoksL_append ms b]

mutual

/-- The token texts carried by a tree's marker stream are exactly the
tree's significant token sequence. -/
theorem mtoks_gen : ∀ u : CSTree, mtoksL (gen u) = treeToks u
  | .leaf b tx c => by
    cases c <;> simp [gen, mtoksL, mtoks1, treeToks]
  | .node .storedDefinition cs => by
    simp only [gen, treeToks]
    exact mtoks_genTop cs
  | .node .classDefinition [] => rfl
  | .node .classDefinition (c0 :: rest) => by
    simp only [gen, treeToks, treeToksL, mtoksL_append, mtoks_gen c0]
    simp [mtoksL, mtoks1, mtoks_classTail rest]
  | .node .equationSection [] => rfl
  | .node .equationSection (c0 :: rest) => by
    simp only [gen, treeToks, treeToksL, mtoksL_append, mtoks_gen c0]
    simp [mtoksL, mtoks1, mtoks_secTail rest]
  | .node .equation cs => by
    simp only [gen, treeToks, mtoksL, mtoks1]
    simp [mtoks_genSoft cs]
  | .node .binaryExpr cs => by
    simp only [gen, treeToks, mtoksL, mtoks1]
    simp [mtoks_genSoft cs]
  | .node .argumentList cs => by
    simp only [gen, treeToks, mtoksL, mtoks1]
    simp [mtoks_genSoft cs]
  | .node .otherKind cs => by
    simp only [gen, treeToks]
    exact mtoks_genSpace cs

/-- Token texts of the top-level member stream. -/
theorem mtoks_genTop : ∀ cs : List CSTree, mtoksL (genTop cs) = treeToksL cs
  | [] => rfl
  | c :: cs => by
    simp only [genTop, treeToksL, mtoksL_append, mtoks_gen c, mtoks_genTopT cs]

/-- Token texts of the top-level member tail. -/
theorem mtoks_genTopT : ∀ cs : List CSTree, mtoksL (genTopT cs) = treeToksL cs
  | [] => rfl
  | c :: cs => by
    simp only [genTopT, treeToksL, mtoksL, mtoks1, mtoksL_append, mtoks_gen c,
      mtoks_genTopT cs]
    simp

/-- Token texts of a class body tail. -/
theorem mtoks_classTail : ∀ cs : List CSTree, mtoksL (classTail cs) = treeToksL cs
  | [] => rfl
  | [c] => by
    simp [classTail, mtoksL, mtoks1, mtoks_gen c, treeToksL]
  | c :: c2 :: cs => by
    simp only [classTail, treeToksL, mtoksL, mtoks1, mtoksL_append, mtoks_gen c,
      mtoks_classTail (c2 :: cs)]
    simp

/-- Token texts of an equation-section tail. -/
theorem mtoks_secTail : ∀ cs : List CSTree, mtoksL (secTail cs) = treeToksL cs
  | [] => rfl
  | c :: cs => by
    simp only [secTail, treeToksL, mtoksL, mtoks1, mtoksL_append, mtoks_gen c,
      mtoks_secTail cs]
    simp

/-- Token texts of soft-joined children. -/
theorem mtoks_genSoft : ∀ cs : List CSTree, mtoksL (genSoft cs) = treeToksL cs
  | [] => rfl
  | c :: cs => by
    simp only [genSoft, treeToksL, mtoksL_append, mtoks_gen c, mtoks_genSoftT cs]

/-- Token texts of the soft-joined tail. -/
theorem mtoks_genSoftT : ∀ cs : List CSTree, mtoksL (genSoftT cs) = treeToksL cs
  | [] => rfl
  | c :: cs => by
    simp only [genSoftT, treeToksL, mtoksL, mtoks1, mtoksL_append, mtoks_gen c,
      mtoks_genSoftT cs]
    simp

/-- Token texts of space-joined children. -/
theorem mtoks_genSpace : ∀ cs : List CSTree, mtoksL (genSpace cs) = treeToksL cs
  | [] => rfl
  | c :: cs => by
    simp only [genSpace, treeToksL, mtoksL_append, mtoks_gen c, mtoks_genSpaceT cs]

/-- Token texts of the space-joined tail. -/
theorem mtoks_genSpaceT : ∀ cs : List CSTree, mtoksL (genSpaceT cs) = treeToksL cs
  | [] => rfl
  | c :: cs => by
    simp only [genSpaceT, treeToksL, mtoksL, mtoks1, mtoksL_append, mtoks_gen c,
      mtoks_genSpaceT cs]
    simp

end

/-! Part: Token preservation: the output interleaves the tokens verbatim -/

/-- Recorded token texts distribute over appending line lists. -/
theorem lineToks_append : ∀ xs ys : List RichLine,
    lineToks (xs ++ ys) = lineToks xs ++ lineToks ys
  | [], ys => by simp [lineToks]
  | x :: xs, ys => by simp [lineToks, lineToks_append xs ys]

/-- Blank filler lines carry no tokens. -/
theorem lineToks_replicate : ∀ n : Nat,
    lineToks (List.replicate n emptyLine) = []
  | 0 => rfl
  | n + 1 => by
    simp only [List.replicate_succ, lineToks, lineToks_replicate n]
    simp [emptyLine]

/-- Flushing pending whitespace does not change the recorded tokens. -/
theorem lineToks_flush (st : PState) :
    lineToks (finalize (flushTok st)) = lineToks (finalize st) := by
  rw [finalize_flush]
  unfold finalize
  by_cases hp : st.pendingNL > 0
  · rw [if_pos hp]
    simp [lineToks_append, lineToks, lineToks_replicate, lineAt]
  · rw [if_neg hp]
    simp [lineToks_append, lineToks]

/-- Emitting a token appends exactly that token text to the record. -/
theorem lineToks_emitTok (st : PState) (t : Text) :
    lineToks (finalize (emitTok st t)) = lineToks (finalize st) ++ [t] := by
  rw [← lineToks_flush st]
  unfold emitTok finalize
  simp [lineToks_append, lineToks]

/-- Emitting a flat group appends exactly its token texts to the record. -/
theorem lineToks_emitFlat (st : PState) (inner : List Marker) :
    lineToks (finalize (emitFlat st inner)) =
      lineToks (finalize st) ++ mtoksL inner := by
  rw [← lineToks_flush st]
  unfold emitFlat finalize
  simp [lineToks_append, lineToks]

mutual

/-- One rendering step appends exactly the marker's token texts to the
record, for every width, group decision and state. -/
theorem toks_render1 : ∀ (w : Option Nat) (m : Marker) (st : PState),
    lineToks (finalize (render1 w m st)) = lineToks (finalize st) ++ mtoks1 m
  | w, .tok t c, st => by
    simp only [render1, mtoks1]
    exact lineToks_emitTok st t
  | w, .space n, st => by simp [render1, finalize, mtoks1, lineToks_append, lineToks]
  | w, .soft, st => by simp [render1, finalize, mtoks1, lineToks_append, lineToks]
  | w, .hard, st => by simp [render1, finalize, mtoks1, lineToks_append, lineToks]
  | w, .blank n, st => by simp [render1, finalize, mtoks1, lineToks_append, lineToks]
  | w, .indentInc, st => by simp [render1, finalize, mtoks1, lineToks_append, lineToks]
  | w, .indentDec, st => by simp [render1, finalize, mtoks1, lineToks_append, lineToks]
  | w, .group inner, st => by
    by_cases hf : fits w (effCol st) inner = true
    · simp only [render1, if_pos hf, mtoks1]
      exact lineToks_emitFlat st inner
    · simp only [render1, if_neg hf, mtoks1]
      exact toks_renderL w inner st

/-- Rendering a marker sequence appends exactly its token texts to the
record. -/
theorem toks_renderL : ∀ (w : Option Nat) (ms : List Marker) (st : PState),
    lineToks (finalize (renderL w ms st)) = lineToks (finalize st) ++ mtoksL ms
  | w, [], st => by simp [renderL, mtoksL]
  | w, m :: ms, st => by
    simp only [renderL, mtoksL]
    rw [toks_renderL w ms (render1 w m st), toks_render1 w m st, List.append_assoc]

end

/-- Interleavings compose over concatenation. -/
theorem WSplit_append {a : Text} {xs : List Text} (ha : WSplit a xs) :
    ∀ {b : Text} {ys : List Text}, WSplit b ys → WSplit (a ++ b) (xs ++ ys) := by
  intro b ys hb
  induction hb with
  | nil => simpa using ha
  | ws u hu hprev ih =>
    rw [← List.append_assoc]
    exact WSplit.ws u hu ih
  | tok v hprev ih =>
    rw [← List.append_assoc, ← List.append_assoc]
    exact WSplit.tok v ih

mutual

/-- The flat rendering of one marker is its token texts interleaved with
whitespace. -/
theorem WSplit_flat1 : ∀ m : Marker, WSplit (flatR1 m) (mtoks1 m)
  | .tok t c => by
    simp only [flatR1, mtoks1]
    exact WSplit.tok t WSplit.nil
  | .space n => by
    simp only [flatR1, mtoks1]
    exact WSplit.ws (List.replicate n ' ') (allWS_spaces n) WSplit.nil
  | .soft => by
    simp only [flatR1, mtoks1]
    exact WSplit.ws (List.replicate 1 ' ') (allWS_spaces 1) WSplit.nil
  | .hard => by
    simp only [flatR1, mtoks1]
    exact WSplit.ws (List.replicate 1 ' ') (allWS_spaces 1) WSplit.nil
  | .blank n => by
    simp only [flatR1, mtoks1]
    exact WSplit.nil
  | .indentInc => by
    simp only [flatR1, mtoks1]
    exact WSplit.nil
  | .indentDec => by
    simp only [flatR1, mtoks1]
    exact WSplit.nil
  | .group inner => by
    simp only [flatR1, mtoks1]
    exact WSplit_flatL inner

/-- The flat rendering of a marker sequence is its token texts interleaved
with whitespace. -/
theorem WSplit_flatL : ∀ ms : List Marker, WSplit (flatRL ms) (mtoksL ms)
  | [] => WSplit.nil
  | m :: ms => by
    simp only [flatRL, mtoksL]
    exact WSplit_append (WSplit_flat1 m) (WSplit_flatL ms)

end

/-- Flushing preserves the invariant that the printed text is the recorded
token texts interleaved with whitespace. -/
theorem wsplit_flush (st : PState)
    (h : WSplit (outText st) (lineToks (finalize st))) :
    WSplit (outText (flushTok st)) (lineToks (finalize (flushTok st))) := by
  rw [outText_flush, lineToks_flush]
  exact WSplit.ws (wsOf st) (wsOf_allWS st) h

mutual

/-- One rendering step preserves the interleaving invariant: tokens are
emitted verbatim and everything else the printer appends is whitespace. -/
theorem wsplit_render1 : ∀ (w : Option Nat) (m : Marker) (st : PState),
    WSplit (outText st) (lineToks (finalize st)) →
    WSplit (outText (render1 w m st)) (lineToks (finalize (render1 w m st)))
  | w, .tok t c, st, h => by
    simp only [render1]
    rw [outText_emitTok, lineToks_emitTok, ← lineToks_flush st]
    exact WSplit.tok t (wsplit_flush st h)
  | w, .space n, st, h => by simpa [render1, outText, finalize] using h
  | w, .soft, st, h => by simpa [render1, outText, finalize] using h
  | w, .hard, st, h => by simpa [render1, outText, finalize] using h
  | w, .blank n, st, h => by simpa [render1, outText, finalize] using h
  | w, .indentInc, st, h => by simpa [render1, outText, finalize] using h
  | w, .indentDec, st, h => by simpa [render1, outText, finalize] using h
  | w, .group inner, st, h => by
    by_cases hf : fits w (effCol st) inner = true
    · simp only [render1, if_pos hf]
      rw [outText_emitFlat, lineToks_emitFlat, ← lineToks_flush st]
      exact WSplit_append (wsplit_flush st h) (WSplit_flatL inner)
    · simp only [render1, if_neg hf]
      exact wsplit_renderL w inner st h

/-- Rendering a marker sequence preserves the interleaving invariant. -/
theorem wsplit_renderL : ∀ (w : Option Nat) (ms : List Marker) (st : PState),
    WSplit (outText st) (lineToks (finalize st)) →
    WSplit (outText (renderL w ms st)) (lineToks (finalize (renderL w ms st)))
  | w, [], st, h => by simpa [renderL] using h
  | w, m :: ms, st, h => by
    simp only [renderL]
    exact wsplit_renderL w ms (render1 w m st) (wsplit_render1 w m st h)

end

/-- The printer lays exactly the tree's significant token sequence into its
output, and the output text is that sequence (every token, comment and
literal text verbatim, in order) interleaved with whitespace. -/
theorem wsplit_format (t : CSTree) (w : Option Nat) :
    prettyToks t w = treeToks t ∧
    WSplit (print t (format t w)) (treeToks t) := by
  have h0 : lineToks (finalize initState) = ([] : List Text) := rfl
  have ht := toks_renderL w (gen t) initState
  have h2 : lineToks (finalize (renderL w (gen t) initState)) = treeToks t := by
    rw [ht, h0, mtoks_gen t]
    simp
  have hs : WSplit (outText initState) (lineToks (finalize initState)) :=
    WSplit.nil
  have hw := wsplit_renderL w (gen t) initState hs
  constructor
  · show lineToks (finalize (renderL w (gen t) initState)) = treeToks t
    exact h2
  · show WSplit (outText (renderL w (gen t) initState)) (treeToks t)
    rw [← h2]
    exact hw

/-- C2: the formatted output consists of the original significant token
sequence — every token, comment and literal text verbatim, in order —
interleaved only with whitespace chosen by the formatter; hence when the
external parser recovers from the output exactly the token sequence the
printer laid into it (losslessness of the external parser on formatter
output), the re-parsed significant token sequence equals the original one:
formatting never adds, removes, reorders or alters any token, for both
entry points. -/
theorem claimC2_token_preservation (parse : Text → CSTree) (source : Text) :
    (WSplit (pretty_print (parse source)) (treeToks (parse source)) ∧
      (treeToks (parse (pretty_print (parse source))) =
          prettyToks (parse source) none →
        treeToks (parse (pretty_print (parse source))) =
          treeToks (parse source))) ∧
    ∀ w : Nat,
      WSplit (pretty_print_with_line_length (parse source) w)
          (treeToks (parse source)) ∧
      (treeToks (parse (pretty_print_with_line_length (parse source) w)) =
          prettyToks (parse source) (some w) →
        treeToks (parse (pretty_print_with_line_length (parse source) w)) =
          treeToks (parse source)) := by
  refine ⟨⟨(wsplit_format (parse source) none).2, ?_⟩, fun w =>
    ⟨(wsplit_format (parse source) (some w)).2, ?_⟩⟩
  · intro hp
    rw [hp, (wsplit_format (parse source) none).1]
  · intro hp
    rw [hp, (wsplit_format (parse source) (some w)).1]

/-- C2 witness: a concrete tree containing a comment token with internal
spaces, whose formatted output, re-parsed by a lossless parser, has exactly
the original significant token sequence. -/
theorem claimC2_witness :
    treeToks (w2parse (pretty_print (w2parse []))) = treeToks (w2parse []) :=
  (claimC2_token_preservation w2parse []).1.2 (by decide)

/-! Part: Idempotence: collapsing blanks is invisible to the generator -/

mutual

/-- Zeroing all blank counts does not change the marker stream of a subtree
without `storedDefinition` nodes (only the top-level rule reads blanks). -/
theorem gen_zeroAll : ∀ u : CSTree, noSD u = true → gen (zeroAll u) = gen u
  | .leaf b t c, _ => rfl
  | .node .storedDefinition cs, h => by simp [noSD] at h
  | .node .classDefinition [], _ => rfl
  | .node .classDefinition (c0 :: rest), h => by
    have h2 : noSD c0 = true ∧ noSDL rest = true := by
      simpa [noSD, noSDL, Bool.and_eq_true] using h
    simp only [zeroAll, zeroAllL, gen]
    rw [gen_zeroAll c0 h2.1, classTail_zero rest h2.2]
  | .node .equationSection [], _ => rfl
  | .node .equationSection (c0 :: rest), h => by
    have h2 : noSD c0 = true ∧ noSDL rest = true := by
      simpa [noSD, noSDL, Bool.and_eq_true] using h
    simp only [zeroAll, zeroAllL, gen]
    rw [gen_zeroAll c0 h2.1, secTail_zero rest h2.2]
  | .node .equation cs, h => by
    have h2 : noSDL cs = true := by simpa [noSD] using h
    simp only [zeroAll, gen]
    rw [genSoft_zero cs h2]
  | .node .binaryExpr cs, h => by
    have h2 : noSDL cs = true := by simpa [noSD] using h
    simp only [zeroAll, gen]
    rw [genSoft_zero cs h2]
  | .node .argumentList cs, h => by
    have h2 : noSDL cs = true := by simpa [noSD] using h
    simp only [zeroAll, gen]
    rw [genSoft_zero cs h2]
  | .node .otherKind cs, h => by
    have h2 : noSDL cs = true := by simpa [noSD] using h
    simp only [zeroAll, gen]
    rw [genSpace_zero cs h2]

/-- `classTail` ignores blank counts. -/
theorem classTail_zero : ∀ cs : List CSTree, noSDL cs = true →
    classTail (zeroAllL cs) = classTail cs
  | [], _ => rfl
  | [c], h => by
    have h2 : noSD c = true := by simpa [noSDL, Bool.and_eq_true] using h
    simp only [zeroAllL, classTail]
    rw [gen_zeroAll c h2]
  | c :: c2 :: cs2, h => by
    rw [noSDL, Bool.and_eq_true] at h
    simp only [zeroAllL, classTail]
    rw [gen_zeroAll c h.1]
    have h3 := classTail_zero (c2 :: cs2) h.2
    simp only [zeroAllL] at h3
    rw [h3]

/-- `secTail` ignores blank counts. -/
theorem secTail_zero : ∀ cs : List CSTree, noSDL cs = true →
    secTail (zeroAllL cs) = secTail cs
  | [], _ => rfl
  | c :: cs, h => by
    have h2 : noSD c = true ∧ noSDL cs = true := by
      simpa [noSDL, Bool.and_eq_true] using h
    simp only [zeroAllL, secTail]
    rw [gen_zeroAll c h2.1, secTail_zero cs h2.2]

/-- `genSoft` ignores blank counts. -/
theorem genSoft_zero : ∀ cs : List CSTree, noSDL cs = true →
    genSoft (zeroAllL cs) = genSoft cs
  | [], _ => rfl
  | c :: cs, h => by
    have h2 : noSD c = true ∧ noSDL cs = true := by
      simpa [noSDL, Bool.and_eq_true] using h
    simp only [zeroAllL, genSoft]
    rw [gen_zeroAll c h2.1, genSoftT_zero cs h2.2]

/-- `genSoftT` ignores blank counts. -/
theorem genSoftT_zero : ∀ cs : List CSTree, noSDL cs = true →
    genSoftT (zeroAllL cs) = genSoftT cs
  | [], _ => rfl
  | c :: cs, h => by
    have h2 : noSD c = true ∧ noSDL cs = true := by
      simpa [noSDL, Bool.and_eq_true] using h
    simp only [zeroAllL, genSoftT]
    rw [gen_zeroAll c h2.1, genSoftT_zero cs h2.2]

/-- `genSpace` ignores blank counts. -/
theorem genSpace_zero : ∀ cs : List CSTree, noSDL cs = true →
    genSpace (zeroAllL cs) = genSpace cs
  | [], _ => rfl
  | c :: cs, h => by
    have h2 : noSD c = true ∧ noSDL cs = true := by
      simpa [noSDL, Bool.and_eq_true] using h
    simp only [zeroAllL, genSpace]
    rw [gen_zeroAll c h2.1, genSpaceT_zero cs h2.2]

/-- `genSpaceT` ignores blank counts. -/
theorem genSpaceT_zero : ∀ cs : List CSTree, noSDL cs = true →
    genSpaceT (zeroAllL cs) = genSpaceT cs
  | [], _ => rfl
  | c :: cs, h => by
    have h2 : noSD c = true ∧ noSDL cs = true := by
      simpa [noSDL, Bool.and_eq_true] using h
    simp only [zeroAllL, genSpaceT]
    rw [gen_zeroAll c h2.1, genSpaceT_zero cs h2.2]

end

/-- Setting the first token's blank count does not change the marker stream
of a subtree without `storedDefinition` nodes. -/
theorem gen_setFirst : ∀ (n : Nat) (u : CSTree), noSD u = true →
    gen (setFirst n u) = gen u
  | _, .leaf b t c, _ => rfl
  | _, .node .storedDefinition cs, h => by simp [noSD] at h
  | _, .node .classDefinition [], _ => rfl
  | n, .node .classDefinition (c0 :: rest), h => by
    have h2 : noSD c0 = true ∧ noSDL rest = true := by
      simpa [noSD, noSDL, Bool.and_eq_true] using h
    simp only [setFirst, gen]
    rw [gen_setFirst n c0 h2.1]
  | _, .node .equationSection [], _ => rfl
  | n, .node .equationSection (c0 :: rest), h => by
    have h2 : noSD c0 = true ∧ noSDL rest = true := by
      simpa [noSD, noSDL, Bool.and_eq_true] using h
    simp only [setFirst, gen]
    rw [gen_setFirst n c0 h2.1]
  | _, .node .equation [], _ => rfl
  | n, .node .equation (c :: cs), h => by
    have h2 : noSD c = true ∧ noSDL cs = true := by
      simpa [noSD, noSDL, Bool.and_eq_true] using h
    simp only [setFirst, gen, genSoft]
    rw [gen_setFirst n c h2.1]
  | _, .node .binaryExpr [], _ => rfl
  | n, .node .binaryExpr (c :: cs), h => by
    have h2 : noSD c = true ∧ noSDL cs = true := by
      simpa [noSD, noSDL, Bool.and_eq_true] using h
    simp only [setFirst, gen, genSoft]
    rw [gen_setFirst n c h2.1]
  | _, .node .argumentList [], _ => rfl
  | n, .node .argumentList (c :: cs), h => by
    have h2 : noSD c = true ∧ noSDL cs = true := by
      simpa [noSD, noSDL, Bool.and_eq_true] using h
    simp only [setFirst, gen, genSoft]
    rw [gen_setFirst n c h2.1]
  | _, .node .otherKind [], _ => rfl
  | n, .node .otherKind (c :: cs), h => by
    have h2 : noSD c = true ∧ noSDL cs = true := by
      simpa [noSD, noSDL, Bool.and_eq_true] using h
    simp only [setFirst, gen, genSpace]
    rw [gen_setFirst n c h2.1]

mutual

/-- Zeroing blanks preserves absence of `storedDefinition`. -/
theorem noSD_zeroAll : ∀ u : CSTree, noSD (zeroAll u) = noSD u
  | .leaf .. => rfl
  | .node k cs => by simp only [zeroAll, noSD, noSDL_zeroAllL cs]

/-- Zeroing blanks preserves absence of `storedDefinition`, list case. -/
theorem noSDL_zeroAllL : ∀ cs : List CSTree, noSDL (zeroAllL cs) = noSDL cs
  | [] => rfl
  | c :: cs => by simp only [zeroAllL, noSDL, noSD_zeroAll c, noSDL_zeroAllL cs]

end

/-- Setting the first blank count preserves absence of `storedDefinition`. -/
theorem noSD_setFirst (n : Nat) : ∀ u : CSTree, noSD (setFirst n u) = noSD u
  | .leaf .. => rfl
  | .node k [] => rfl
  | .node k (c :: cs) => by
    simp only [setFirst, noSD, noSDL, noSD_setFirst n c]

/-- `setFirst` preserves whether the leftmost path ends at a token. -/
theorem firstLeafEx_setFirst (n : Nat) : ∀ u : CSTree,
    firstLeafEx (setFirst n u) = firstLeafEx u
  | .leaf .. => rfl
  | .node k [] => rfl
  | .node k (c :: cs) => by
    simp only [setFirst, firstLeafEx, firstLeafEx_setFirst n c]

/-- `zeroAll` preserves whether the leftmost path ends at a token. -/
theorem firstLeafEx_zeroAll : ∀ u : CSTree, firstLeafEx (zeroAll u) = firstLeafEx u
  | .leaf .. => rfl
  | .node k [] => rfl
  | .node k (c :: cs) => by
    simp only [zeroAll, zeroAllL, firstLeafEx, firstLeafEx_zeroAll c]

/-- When the leftmost path ends at a token, `setFirst` sets exactly the
blank count that `firstBlanks` reads. -/
theorem firstBlanks_setFirst (n : Nat) : ∀ u : CSTree, firstLeafEx u = true →
    firstBlanks (setFirst n u) = n
  | .leaf .., _ => rfl
  | .node k [], h => by simp [firstLeafEx] at h
  | .node k (c :: cs), h => by
    simp only [firstLeafEx] at h
    simp only [setFirst, firstBlanks, firstBlanks_setFirst n c h]

/-- When the leftmost path does not end at a token, there are no first
blanks. -/
theorem firstBlanks_none : ∀ u : CSTree, firstLeafEx u = false → firstBlanks u = 0
  | .leaf .., h => by simp [firstLeafEx] at h
  | .node k [], _ => rfl
  | .node k (c :: cs), h => by
    simp only [firstLeafEx] at h
    simp only [firstBlanks, firstBlanks_none c h]

/-- The collapsed member separator reproduces the original collapsed blank
count (`min` with 1 is idempotent). -/
theorem collapse_sep (x : CSTree) :
    min (firstBlanks (setFirst (min (firstBlanks x) 1) (zeroAll x))) 1 =
      min (firstBlanks x) 1 := by
  cases hf : firstLeafEx x with
  | true =>
    have h1 : firstLeafEx (zeroAll x) = true := by rw [firstLeafEx_zeroAll, hf]
    rw [firstBlanks_setFirst _ _ h1]
    omega
  | false =>
    have h1 : firstLeafEx (setFirst (min (firstBlanks x) 1) (zeroAll x)) = false := by
      rw [firstLeafEx_setFirst, firstLeafEx_zeroAll, hf]
    rw [firstBlanks_none _ h1, firstBlanks_none x hf]

/-- Collapsing blanks is invisible to the tail of the top-level member
walk. -/
theorem genTopT_collapse : ∀ cs : List CSTree, noSDL cs = true →
    genTopT (cs.map (fun x => setFirst (min (firstBlanks x) 1) (zeroAll x))) =
      genTopT cs
  | [], _ => rfl
  | c :: cs, h => by
    have h2 : noSD c = true ∧ noSDL cs = true := by
      simpa [noSDL, Bool.and_eq_true] using h
    simp only [List.map_cons, genTopT]
    rw [collapse_sep c,
      gen_setFirst _ _ (by rw [noSD_zeroAll]; exact h2.1),
      gen_zeroAll c h2.1,
      genTopT_collapse cs h2.2]

/-- The marker generator is a fixed point of blank collapsing on
well-formed trees: the formatter reads blank counts only through the
collapsed top-level separators, and collapsing is idempotent there. -/
theorem gen_collapse : ∀ t : CSTree, WF t = true →
    gen (collapseBlanks t) = gen t
  | .leaf .., _ => rfl
  | .node .storedDefinition [], _ => rfl
  | .node .storedDefinition (c :: cs), h => by
    have h2 : noSD c = true ∧ noSDL cs = true := by
      simpa [WF, noSDL, Bool.and_eq_true] using h
    simp only [collapseBlanks, gen, genTop]
    rw [gen_zeroAll c h2.1, genTopT_collapse cs h2.2]
  | .node .classDefinition cs, h => gen_zeroAll (.node .classDefinition cs) h
  | .node .equationSection cs, h => gen_zeroAll (.node .equationSection cs) h
  | .node .equation cs, h => gen_zeroAll (.node .equation cs) h
  | .node .binaryExpr cs, h => gen_zeroAll (.node .binaryExpr cs) h
  | .node .argumentList cs, h => gen_zeroAll (.node .argumentList cs) h
  | .node .otherKind cs, h => gen_zeroAll (.node .otherKind cs) h

/-- Formatting is a fixed point of blank collapsing, for both entry
points. -/
theorem pretty_print_collapse (t : CSTree) (h : WF t = true) :
    pretty_print (collapseBlanks t) = pretty_print t ∧
    ∀ w : Nat, pretty_print_with_line_length (collapseBlanks t) w =
      pretty_print_with_line_length t w := by
  have hg := gen_collapse t h
  exact ⟨by simp [pretty_print, print, renderLines, format, hg],
    fun w => by simp [pretty_print_with_line_length, print, renderLines, format, hg]⟩

/-- C1: for a well-formed parsed tree, when re-parsing the formatter's
output yields the blank-collapsed tree (the lossless parse of the printed
text), formatting again reproduces exactly the same text, for
`pretty_print` and for `pretty_print_with_line_length` at any width. -/
theorem claimC1_idempotence (parse : Text → CSTree) (source : Text)
    (hWF : WF (parse source) = true) :
    (parse (pretty_print (parse source)) = collapseBlanks (parse source) →
      pretty_print (parse (pretty_print (parse source))) =
        pretty_print (parse source)) ∧
    ∀ w : Nat,
      parse (pretty_print_with_line_length (parse source) w) =
        collapseBlanks (parse source) →
      pretty_print_with_line_length
          (parse (pretty_print_with_line_length (parse source) w)) w =
        pretty_print_with_line_length (parse source) w := by
  constructor
  · intro hp
    rw [hp]
    exact (pretty_print_collapse _ hWF).1
  · intro w hp
    rw [hp]
    exact (pretty_print_collapse _ hWF).2 w

/-- C1 witness: a concrete source whose formatted output, re-parsed and
formatted again, is unchanged. -/
theorem claimC1_witness :
    pretty_print (w1parse (pretty_print (w1parse []))) =
      pretty_print (w1parse []) :=
  (claimC1_idempotence w1parse [] (by decide)).1 (by decide)

/-- C5 witness: a concrete completed run: one unreadable file, one file
with syntax errors and one fine file all produce their outcomes and the
exit code is 1. -/
theorem claimC5_witness :
    ∃ files,
      expandArgs [FsTree.file "a.mo".toList (.ok ['x']) true] = .ok files ∧
      (∀ f ∈ files, ∃ p c w, f = FsTree.file p c w) ∧
      RunResult.outcomes ⟨[("a.mo".toList, .written (['x'] ++ "\n".toList))], 0⟩ =
        files.map (fun f => (pathF f,
          processFile cexOracle false none "\n".toList (pathF f) (contentF f))) ∧
      (RunResult.code ⟨[("a.mo".toList, .written (['x'] ++ "\n".toList))], 0⟩ ≠ 0 ↔
        ∃ po ∈ RunResult.outcomes ⟨[("a.mo".toList, .written (['x'] ++ "\n".toList))], 0⟩,
          outcomeFails po.2 = true) :=
  claimC5_aggregation [FsTree.file "a.mo".toList (.ok ['x']) true] false none
    cexOracle "\n".toList ⟨[("a.mo".toList, .written (['x'] ++ "\n".toList))], 0⟩
    (by decide)

end Mofmt
